import Mathlib

/-!
# Verification of the convex-hull algorithm library (`src/api/app.py`)

Shallow embedding of the geometric core: the orientation / distance
primitives, Graham's scan (monotone chain), Jarvis march (gift wrapping),
the tangent locator, Chan's algorithm, and the incremental hull maintainer.

Coordinates are embedded as exact rationals (`ℚ`).  The source operates on
IEEE floats; every numeric decision in the source is an exact comparison
except the explicit tolerance `1e-10` in `orientation` (and `1e-12` in the
containment test), which are carried over literally as rational constants.
The trace buffers of the source are write-only per invocation, so hull
computation and trace emission are embedded as separate functions; trace
records are abstracted to their `type`/`phase` tags, which is the only
aspect of a record the claims mention.
-/

/-- A 2D point, as in the Python tuples `(x, y)`. -/
abbrev Point : Type := ℚ × ℚ

/-- The collinearity tolerance `1e-10` from `orientation`. -/
def eps : ℚ := 1 / 10000000000

/-- The raw determinant `(q.x - p.x) * (r.y - p.y) - (q.y - p.y) * (r.x - p.x)`. -/
def orientationRaw (p q r : Point) : ℚ :=
  (q.1 - p.1) * (r.2 - p.2) - (q.2 - p.2) * (r.1 - p.1)

/-- `orientation(p, q, r)` from the source: the determinant, snapped to `0`
when its absolute value is below `1e-10`. -/
def orientation (p q r : Point) : ℚ :=
  if |orientationRaw p q r| < eps then 0 else orientationRaw p q r

/-- `distance_squared(p1, p2)` from the source. -/
def distance_squared (p1 p2 : Point) : ℚ :=
  (p1.1 - p2.1) ^ 2 + (p1.2 - p2.2) ^ 2

/-- Python's tuple comparison `(x, y) <= (x', y')` (lexicographic), as used by
`sorted(points, key=lambda p: (p[0], p[1]))` and by `min`/`sorted(set(...))`. -/
def ptLe (a b : Point) : Bool :=
  decide (a.1 < b.1 ∨ (a.1 = b.1 ∧ a.2 ≤ b.2))

/-- Strict lexicographic comparison on points, Python `<` on tuples. -/
def ptLt (a b : Point) : Prop :=
  a.1 < b.1 ∨ (a.1 = b.1 ∧ a.2 < b.2)

instance : DecidablePred fun ab : Point × Point => ptLt ab.1 ab.2 := by
  intro ab; unfold ptLt; infer_instance

instance (a b : Point) : Decidable (ptLt a b) := by
  unfold ptLt; infer_instance

/-- `ptLe` as a relation, for `List.insertionSort`. -/
def ptLeP (a b : Point) : Prop :=
  a.1 < b.1 ∨ (a.1 = b.1 ∧ a.2 ≤ b.2)

instance (a b : Point) : Decidable (ptLeP a b) := by
  unfold ptLeP; infer_instance

/-- `sorted(points, key=lambda p: (p[0], p[1]))`: sort by the lexicographic
order on coordinates.  Python's `sorted` is a stable sort, and the sort key
here is the whole point value, so elements with equal keys are equal and
every sorted permutation of the input is the same list; the embedding uses
insertion sort (the canonical stable sort). -/
def sortPoints (ps : List Point) : List Point :=
  List.insertionSort ptLeP ps

/-- The inner `while` loop of each chain pass of `grahams_scan`
(lines 94-131 / 182-217): with the stack held top-first, pop the top `t`
while the triple `(p, t, s)` fails the strict left-turn test
(`orientation <= 0`). -/
def popWhile (p : Point) : List Point → List Point
  | t :: s :: rest => if orientation p t s ≤ 0 then popWhile p (s :: rest) else t :: s :: rest
  | l => l

/-- One step of a chain pass: pop offending points, then push `p`. -/
def scanStep (st : List Point) (p : Point) : List Point :=
  p :: popWhile p st

/-- A full chain pass over a point sequence.  The result is the chain with
its most recently pushed point first (the reverse of the Python list). -/
def buildChain (ps : List Point) : List Point :=
  ps.foldl scanStep []

/-- `grahams_scan(points)` (lines 44-262), hull value only: fewer than 3
points are returned unchanged; otherwise sort by `(x, y)`, build the two
chains, and return `upper_hull[:-1] + lower_hull[:-1]`. -/
def grahams_scan (ps : List Point) : List Point :=
  if ps.length < 3 then ps
  else
    let sorted := sortPoints ps
    let upper := (buildChain sorted).reverse
    let lower := (buildChain sorted.reverse).reverse
    upper.dropLast ++ lower.dropLast

/-- List indexing `points[i]`, with a default for out-of-range indices (the
source only ever indexes in range). -/
def pget (ps : List Point) (i : Nat) : Point :=
  ps.getD i (0, 0)

/-- The leftmost-point scan of `jarvis_march` (lines 282-288): smallest x,
ties broken by smallest y, first such index. -/
def leftmostIdx (ps : List Point) : Nat :=
  (List.range' 1 (ps.length - 1)).foldl
    (fun best i =>
      if (pget ps i).1 < (pget ps best).1 then i
      else if (pget ps i).1 = (pget ps best).1 ∧ (pget ps i).2 < (pget ps best).2 then i
      else best) 0

/-- The candidate scan of one `jarvis_march` walk step (lines 312-368):
starting from `q = (p + 1) % n`, replace `q` by `i` whenever `i` is strictly
more counter-clockwise, or collinear and strictly farther. -/
def jarvisCandidate (ps : List Point) (p : Nat) : Nat :=
  (List.range ps.length).foldl
    (fun q i =>
      if i = p then q
      else
        let o := orientation (pget ps p) (pget ps i) (pget ps q)
        if o > 0 then i
        else if o = 0 ∧
            distance_squared (pget ps p) (pget ps i) >
              distance_squared (pget ps p) (pget ps q) then i
        else q)
    ((p + 1) % ps.length)

/-- The outer walk of `jarvis_march` (lines 296-386): append the current
point, select the next index, stop on return to the start or when the hull
grows past `n` points.  The walk adds one hull point per iteration and its
own safety bound stops it once the hull exceeds `n` points, so it runs at
most `n + 1` iterations; the structural `fuel` argument (instantiated to
`n + 1` by `jarvis_march`) only reifies that bound and its exhaustion
branch is unreachable. -/
def jarvisLoop (ps : List Point) (leftmost : Nat) : Nat → Nat → List Point → List Point
  | 0, _, hull => hull
  | fuel + 1, p, hull =>
    let q := jarvisCandidate ps p
    if q = leftmost then hull ++ [pget ps p]
    else if ps.length < (hull ++ [pget ps p]).length then hull ++ [pget ps p]
    else jarvisLoop ps leftmost fuel q (hull ++ [pget ps p])

/-- `jarvis_march(points)` (lines 264-388), hull value only. -/
def jarvis_march (ps : List Point) : List Point :=
  if ps.length < 3 then ps
  else jarvisLoop ps (leftmostIdx ps) (ps.length + 1) (leftmostIdx ps) []

/-- `is_better_tangent(external_point, candidate, current_best)`
(lines 406-418).  `current_best` is optional because the source checks
`current_best is None`. -/
def is_better_tangent (ext cand : Point) (best : Option Point) : Bool :=
  match best with
  | none => true
  | some b =>
    if cand = ext then false
    else if b = ext then true
    else decide (orientation ext b cand > 0)

/-- `find_best_among_few(external_point, small_hull)` (lines 391-404):
brute-force tangent choice over a hull of any size, `None` on the empty
hull. -/
def find_best_among_few (ext : Point) (small : List Point) : Option Point :=
  match small with
  | [] => none
  | [h] => some h
  | h :: rest =>
    some (rest.foldl (fun best c => if is_better_tangent ext c (some best) then c else best) h)

/-- `is_better_tangent_point(idx1, idx2)` from inside
`find_rightmost_tangent` (lines 440-448). -/
def is_better_tangent_point (ext : Point) (hull : List Point) (idx1 idx2 : Nat) : Bool :=
  if idx1 = idx2 then false
  else
    let p1 := pget hull idx1
    let p2 := pget hull idx2
    if p1 = ext ∨ p2 = ext then decide (p1 ≠ ext)
    else decide (orientation ext p2 p1 > 0)

/-- The `while right - left > 2` ternary-search loop of
`find_rightmost_tangent` (lines 454-465).  Each iteration shrinks
`right - left` by at least its third, so `right - left + 1` rounds of fuel
(supplied by `find_rightmost_tangent`) always outlast the loop; the
exhaustion branch is unreachable. -/
def ternaryLoop (better : Nat → Nat → Bool) : Nat → Nat → Nat → Nat × Nat
  | 0, left, right => (left, right)
  | fuel + 1, left, right =>
    if 2 < right - left then
      if better (left + (right - left) / 3) (right - (right - left) / 3) then
        ternaryLoop better fuel left (right - (right - left) / 3)
      else ternaryLoop better fuel (left + (right - left) / 3) right
    else (left, right)

/-- The linear scan `for idx in range(left, right + 1)` of
`find_rightmost_tangent` (lines 468-471). -/
def tangentLinear (better : Nat → Nat → Bool) (left right : Nat) : Nat :=
  (List.range' left (right + 1 - left)).foldl
    (fun best idx => if better idx best then idx else best) left

/-- The index selected by the search phase of `find_rightmost_tangent`
(lines 450-477): ternary search, linear scan of the remaining range, then
the two wraparound checks at offsets `-1` and `+1`. -/
def frtSearchIdx (p : Point) (hull : List Point) : Nat :=
  let n := hull.length
  let better := is_better_tangent_point p hull
  let lr := ternaryLoop better n 0 (n - 1)
  let best0 := tangentLinear better lr.1 lr.2
  let best1 := if better ((best0 + n - 1) % n) best0 then (best0 + n - 1) % n else best0
  if better ((best1 + 1) % n) best1 then (best1 + 1) % n else best1

/-- `find_rightmost_tangent(external_point, convex_hull)` (lines 420-479).
The external point is optional because the source checks
`external_point is None`; the guard
`if not convex_hull or external_point is None: return None` is rendered as
the `none` pattern plus the empty-hull test. -/
def find_rightmost_tangent (ext : Option Point) (hull : List Point) : Option Point :=
  match ext with
  | none => none
  | some p =>
    if hull = [] then none
    else if hull.length ≤ 4 then find_best_among_few p hull
    else some (pget hull (frtSearchIdx p hull))

/-- Fuel-driven splitting for `chunksOf`; with `m ≥ 1` each round drops at
least one element, so `l.length` rounds of fuel always suffice. -/
def chunksOfAux (m : Nat) : Nat → List Point → List (List Point)
  | 0, _ => []
  | _ + 1, [] => []
  | fuel + 1, x :: xs => (x :: xs).take m :: chunksOfAux m fuel ((x :: xs).drop m)

/-- `[points[i:i+m] for i in range(0, n, m)]` (line 504): contiguous groups
of at most `m` points, in input order (`chans_algorithm` only calls this
with `m ≥ 3`). -/
def chunksOf (m : Nat) (l : List Point) : List (List Point) :=
  if m = 0 then [] else chunksOfAux m l.length l

/-- Python's `min(points, key=lambda p: (p[0], p[1]))` (line 527): the first
lexicographically smallest point. -/
def minLex (ps : List Point) : Point :=
  match ps with
  | [] => (0, 0)
  | h :: t => t.foldl (fun acc p => if ptLt p acc then p else acc) h

/-- How one mini-hull's tangent candidate updates the best next point in
`chans_algorithm` (lines 556-576): `None` and the current point are
skipped, a first candidate is adopted, and later candidates replace the
best one exactly when more counter-clockwise or collinear-and-farther. -/
def chanConsider (current : Point) : Option Point → Option Point → Option Point
  | best, none => best
  | best, some tc =>
    if tc = current then best
    else
      match best with
      | none => some tc
      | some np =>
        if orientation current np tc > 0 then some tc
        else if orientation current np tc = 0 ∧
            distance_squared current tc > distance_squared current np then some tc
        else some np

/-- The candidate scan of one outer-walk step of `chans_algorithm`
(lines 544-576): query every non-empty mini-hull for its tangent from
`current` and fold the candidates with `chanConsider`. -/
def chanNext (miniHulls : List (List Point)) (current : Point) : Option Point :=
  miniHulls.foldl
    (fun best mh =>
      if mh = [] then best
      else chanConsider current best (find_rightmost_tangent (some current) mh))
    none

/-- The `for step in range(m)` gift-wrap walk of `chans_algorithm`
(lines 531-600): `some hull` on closing back to `leftmost` within the step
budget, `none` otherwise.  A step whose candidate scan yields no point
(`next_point is None` in the source) makes the remaining steps of this
attempt unable to close, so the attempt is reported failed directly. -/
def chanWalk (miniHulls : List (List Point)) (leftmost : Point) :
    Nat → Point → List Point → Option (List Point)
  | 0, _, _ => none
  | fuel + 1, current, hull =>
    match chanNext miniHulls current with
    | none => none
    | some np =>
      if np = leftmost then some (hull ++ [current])
      else chanWalk miniHulls leftmost fuel np (hull ++ [current])

/-- One attempt of `chans_algorithm` at a fixed group size `m`
(lines 504-600): group, mini-hull each group (Graham's scan for groups of
3 or more), and gift-wrap across the mini-hulls for at most `m` steps. -/
def chanAttempt (ps : List Point) (m : Nat) : Option (List Point) :=
  let groups := chunksOf m ps
  let miniHulls := groups.map (fun g => if 3 ≤ g.length then grahams_scan g else g)
  chanWalk miniHulls (minLex ps) m (minLex ps) []

/-- Fuel-driven halving for `log2floor`: halve until below 2, counting the
halvings; `n` halvings always reach 1. -/
def log2floorAux : Nat → Nat → Nat
  | 0, _ => 0
  | fuel + 1, k => if 2 ≤ k then log2floorAux fuel (k / 2) + 1 else 0

/-- `⌊log2 n⌋` (0 for `n ≤ 1`), the value of Python's `int(math.log2 n)`
for the integer arguments at which the source evaluates it. -/
def log2floor (n : Nat) : Nat :=
  log2floorAux n n

/-- The guess sizes: `m = 2^(2^t)`, capped at `n` (`if m >= n: m = n`,
lines 493-494). -/
def chanM (n t : Nat) : Nat :=
  if n ≤ 2 ^ 2 ^ t then n else 2 ^ 2 ^ t

/-- The attempted exponents `t`: Python `range(1, int(log2(log2(n))) + 2)`
(line 492).  For an integer `n ≥ 3`, `int(math.log2(math.log2(n)))` equals
`⌊log2 ⌊log2 n⌋⌋`: any integer power `2^k ≤ log2 n` already satisfies
`2^k ≤ ⌊log2 n⌋`. -/
def chanTList (n : Nat) : List Nat :=
  List.range' 1 (log2floor (log2floor n) + 1)

/-- The outer `for t in range(...)` loop of `chans_algorithm` plus the final
fallback `return grahams_scan(points)` (lines 492-610). -/
def chanOuter (ps : List Point) : List Nat → List Point
  | [] => grahams_scan ps
  | t :: ts =>
    match chanAttempt ps (chanM ps.length t) with
    | some h => h
    | none => chanOuter ps ts

/-- `chans_algorithm(points)` (lines 481-610), hull value only. -/
def chans_algorithm (ps : List Point) : List Point :=
  if ps.length < 3 then ps
  else chanOuter ps (chanTList ps.length)

/-- The containment tolerance `1e-12` used by `point_in_convex_ccw`. -/
def eps2 : ℚ := 1 / 1000000000000

/-- `point_in_convex_ccw(hull, p)` (lines 612-636).  For two vertices the
source divides by `ab·ab`; in ℚ a division by zero yields 0 (the source
would raise there; that state is unreachable from `incremental_convex_hull`,
whose 2-vertex hulls come deduplicated out of `build_ccw_hull`). -/
def point_in_convex_ccw (hull : List Point) (p : Point) : Bool :=
  match hull with
  | [] => false
  | [h] => decide (|p.1 - h.1| < eps2 ∧ |p.2 - h.2| < eps2)
  | [a, b] =>
    if |orientation a b p| > eps2 then false
    else
      let t := ((p.1 - a.1) * (b.1 - a.1) + (p.2 - a.2) * (b.2 - a.2)) /
        ((b.1 - a.1) * (b.1 - a.1) + (b.2 - a.2) * (b.2 - a.2))
      decide (0 ≤ t ∧ t ≤ 1)
  | _ =>
    (List.range hull.length).all fun i =>
      !decide (orientation (pget hull i) (pget hull ((i + 1) % hull.length)) p < -eps2)

/-- `max_iters = int(2 * (math.log2(n) + 3))` (lines 646, 687): for an
integer `n ≥ 3` this equals `⌊2·log2 n + 6⌋ = ⌊log2 (n·n)⌋ + 6`. -/
def tangentIters (n : Nat) : Nat :=
  log2floor (n * n) + 6

/-- The bounded binary-search loop shared by the two tangent-index
functions (lines 648-666 / 689-707).  `found` decides whether `mid` is
returned directly; `goLow` decides which bound moves.  Returns the found
index, or the final `lo` for the brute-force phase. -/
def tangentSearchLoop (found : Nat → Bool) (goLow : Nat → Bool) (n : Nat) :
    Nat → Nat → Nat → Option Nat × Nat
  | 0, lo, _ => (none, lo)
  | fuel + 1, lo, hi =>
    let mid := (lo + hi) / 2
    if found mid then (some mid, lo)
    else
      let lo' := if goLow mid then lo else (mid + 1) % n
      let hi' := if goLow mid then (mid + n - 1) % n else hi
      if (hi' + n - lo') % n ≤ 2 then (none, lo')
      else tangentSearchLoop found goLow n fuel lo' hi'

/-- The brute-force phase of the tangent-index functions
(lines 669-677 / 710-718): first index `(lo + k) % n`, `k < n`, satisfying
the local tangent test, else 0. -/
def tangentBrute (cond : Nat → Bool) (n lo : Nat) : Nat :=
  match (List.range n).find? (fun k => cond ((lo + k) % n)) with
  | some k => (lo + k) % n
  | none => 0

/-- `right_tangent_index(hull, p)` (lines 638-677): the found index of the
binary-search loop when it returns one, otherwise the brute-force scan from
the final `lo`. -/
def right_tangent_index (hull : List Point) (p : Point) : Nat :=
  let n := hull.length
  if n ≤ 2 then 0
  else
    let sideNext := fun i => orientation p (pget hull i) (pget hull ((i + 1) % n))
    let sidePrev := fun i => orientation p (pget hull ((i + n - 1) % n)) (pget hull i)
    let found := fun i => decide (sideNext i ≤ 0 ∧ sidePrev i > 0)
    let goLow := fun i => decide (sideNext i > 0)
    let res := tangentSearchLoop found goLow n (tangentIters n) 0 (n - 1)
    res.1.getD (tangentBrute found n res.2)

/-- `left_tangent_index(hull, p)` (lines 679-718). -/
def left_tangent_index (hull : List Point) (p : Point) : Nat :=
  let n := hull.length
  if n ≤ 2 then
    if n = 1 then 0
    else if orientation p (pget hull 0) (pget hull 1) > 0 then 0 else 1
  else
    let sideNext := fun i => orientation p (pget hull i) (pget hull ((i + 1) % n))
    let sidePrev := fun i => orientation p (pget hull ((i + n - 1) % n)) (pget hull i)
    let found := fun i => decide (sideNext i > 0 ∧ sidePrev i ≤ 0)
    let goLow := fun i => decide (sideNext i ≤ 0)
    let res := tangentSearchLoop found goLow n (tangentIters n) 0 (n - 1)
    res.1.getD (tangentBrute found n res.2)

/-- The `strip_collinear` pop loop of `build_ccw_hull` (lines 729-732),
stack held top-first: pop the top `t` while `orientation(s, t, p) <= 0`. -/
def stripWhile (p : Point) : List Point → List Point
  | t :: s :: rest => if orientation s t p ≤ 0 then stripWhile p (s :: rest) else t :: s :: rest
  | l => l

/-- `build_ccw_hull(points)` (lines 720-740): Andrew's monotone chain over
`sorted(set(points))`, counter-clockwise.  `sorted(set(points))` is embedded
as the lexicographic sort of the deduplicated list, which is the same
sequence of distinct values. -/
def build_ccw_hull (ps : List Point) : List Point :=
  if ps.length ≤ 1 then ps
  else
    let pts := sortPoints ps.dedup
    if pts.length ≤ 1 then pts
    else
      let lower := (pts.foldl (fun st p => p :: stripWhile p st) []).reverse
      let upper := (pts.reverse.foldl (fun st p => p :: stripWhile p st) []).reverse
      lower.dropLast ++ upper.dropLast

/-- The body of the `for idx, p in enumerate(points)` loop of
`incremental_convex_hull` (lines 752-820): seed while below 3 vertices,
discard interior points, otherwise splice `p` in between its two tangent
vertices and clean up duplicates. -/
def incrStep (hull : List Point) (p : Point) : List Point :=
  if hull.length < 3 then build_ccw_hull (hull ++ [p])
  else if point_in_convex_ccw hull p then hull
  else
    let rt := right_tangent_index hull p
    let lt := left_tangent_index hull p
    let newHull :=
      if rt ≤ lt then [pget hull rt, p] ++ hull.drop lt ++ hull.take rt
      else [pget hull rt, p] ++ (hull.drop lt).take (rt + 1 - lt)
    let cleaned := newHull.foldl (fun acc q => if acc.getLast? = some q then acc else acc ++ [q]) []
    if 2 ≤ cleaned.length ∧ cleaned.head? = cleaned.getLast? then cleaned.dropLast else cleaned

/-- `incremental_convex_hull(points)` (lines 742-828), hull value only. -/
def incremental_convex_hull (ps : List Point) : List Point :=
  if ps.length < 3 then ps
  else ps.foldl incrStep []

/-!
Trace embeddings.  Each algorithm resets its module-level step buffer on
entry and appends one dict per event; the claims only concern the presence
and kinds of records, so a record is embedded as its `type`/`phase` tag.
-/

/-- Chain-name tags for the Graham trace. -/
def upperTag : String := "upper_hull"

/-- Chain-name tag for the second Graham pass. -/
def lowerTag : String := "lower_hull"

/-- Trace of the `grahams_scan` pop loop: a `testing` record per iteration,
then `popping` (and another iteration) or `accepted` (and stop)
(lines 94-145). -/
def popWhileT (p : Point) : List Point → List Point × List String
  | t :: s :: rest =>
    if orientation p t s ≤ 0 then
      let r := popWhileT p (s :: rest)
      (r.1, "testing" :: "popping" :: r.2)
    else (t :: s :: rest, ["testing", "accepted"])
  | l => (l, [])

/-- Trace of one full chain pass of `grahams_scan`: `processing` before the
pop loop, `added` after the push (lines 78-159 / 165-245). -/
def chainT (tag : String) (ps : List Point) : List Point × List String :=
  ps.foldl
    (fun acc p =>
      let r := popWhileT p acc.1
      (p :: r.1,
        acc.2 ++ [tag ++ ":processing"] ++ r.2.map (fun s => tag ++ ":" ++ s) ++
          [tag ++ ":added"]))
    ([], [])

/-- The step records of one `grahams_scan` invocation (the `graham_steps`
buffer, reset at line 58): empty for fewer than 3 points. -/
def graham_trace (ps : List Point) : List String :=
  if ps.length < 3 then []
  else
    let sorted := sortPoints ps
    ["sorting"] ++ (chainT upperTag sorted).2 ++ (chainT lowerTag sorted.reverse).2 ++
      ["complete"]

/-- The candidate scan of `jarvis_march` with its `testing` /
`candidate_selected` records (lines 314-368). -/
def jarvisCandidateT (ps : List Point) (p : Nat) : Nat × List String :=
  (List.range ps.length).foldl
    (fun acc i =>
      if i = p then acc
      else
        let o := orientation (pget ps p) (pget ps i) (pget ps acc.1)
        if o > 0 then (i, acc.2 ++ ["testing", "candidate_selected"])
        else if o = 0 ∧
            distance_squared (pget ps p) (pget ps i) >
              distance_squared (pget ps p) (pget ps acc.1) then
          (i, acc.2 ++ ["testing", "candidate_selected"])
        else (acc.1, acc.2 ++ ["testing"]))
    ((p + 1) % ps.length, [])

/-- The step records of the `jarvis_march` walk: `jarvis_step` per
iteration, the candidate records, and `complete` on closing (the safety
break records nothing) (lines 296-386). -/
def jarvisLoopT (ps : List Point) (leftmost : Nat) : Nat → Nat → List Point → List String
  | 0, _, _ => []
  | fuel + 1, p, hull =>
    let r := jarvisCandidateT ps p
    "jarvis_step" :: r.2 ++
      (if r.1 = leftmost then ["complete"]
      else if ps.length < (hull ++ [pget ps p]).length then []
      else jarvisLoopT ps leftmost fuel r.1 (hull ++ [pget ps p]))

/-- The step records of one `jarvis_march` invocation (the `jarvis_steps`
buffer, reset at line 274): empty for fewer than 3 points. -/
def jarvis_trace (ps : List Point) : List String :=
  if ps.length < 3 then []
  else jarvisLoopT ps (leftmostIdx ps) (ps.length + 1) (leftmostIdx ps) []

/-- The step records of the gift-wrap walk of one `chans_algorithm` attempt
(lines 531-600), together with whether the walk closed.  A `jarvis_phase`
record per step; `connecting_edge` when a next point was found;
`complete` on closing.  Once the candidate scan yields no point, the
remaining steps re-scan from a `None` current point and record only their
`jarvis_phase` entries. -/
def chanWalkT (miniHulls : List (List Point)) (leftmost : Point) :
    Nat → Option Point → Bool × List String
  | 0, _ => (false, [])
  | fuel + 1, none =>
    let r := chanWalkT miniHulls leftmost fuel none
    (r.1, "jarvis_phase" :: r.2)
  | fuel + 1, some current =>
    match chanNext miniHulls current with
    | none =>
      let r := chanWalkT miniHulls leftmost fuel none
      (r.1, "jarvis_phase" :: r.2)
    | some np =>
      if np = leftmost then (true, ["jarvis_phase", "connecting_edge", "complete"])
      else
        let r := chanWalkT miniHulls leftmost fuel (some np)
        (r.1, "jarvis_phase" :: "connecting_edge" :: r.2)

/-- The step records of one `chans_algorithm` attempt at group size `m`:
`trying_m`, one `mini_hull` per group, the walk records, and `failed_m`
when the walk does not close (lines 497-607). -/
def chanAttemptT (ps : List Point) (m : Nat) : Bool × List String :=
  let groups := chunksOf m ps
  let miniHulls := groups.map (fun g => if 3 ≤ g.length then grahams_scan g else g)
  let w := chanWalkT miniHulls (minLex ps) m (some (minLex ps))
  (w.1,
    "trying_m" :: groups.map (fun _ => "mini_hull") ++ w.2 ++
      (if w.1 then [] else ["failed_m"]))

/-- The records of the outer loop of `chans_algorithm` over the attempted
exponents. -/
def chanOuterT (ps : List Point) : List Nat → List String
  | [] => []
  | t :: ts =>
    let r := chanAttemptT ps (chanM ps.length t)
    if r.1 then r.2 else r.2 ++ chanOuterT ps ts

/-- The step records of one `chans_algorithm` invocation (the `chan_steps`
buffer, reset at line 484): empty for fewer than 3 points.  The Graham
fallback writes to `graham_steps`, not to `chan_steps`. -/
def chan_trace (ps : List Point) : List String :=
  if ps.length < 3 then []
  else chanOuterT ps (chanTList ps.length)

/-- The step records of one `incremental_convex_hull` invocation (the
`incremental_steps` buffer, reset at line 745): empty for fewer than 3
points; otherwise `seed` / `inside` / `tangents`+`splice_done` per point
and a final `complete` (lines 747-826). -/
def incremental_trace (ps : List Point) : List String :=
  if ps.length < 3 then []
  else
    (ps.foldl
      (fun acc p =>
        let hull := acc.1
        if hull.length < 3 then (incrStep hull p, acc.2 ++ ["seed"])
        else if point_in_convex_ccw hull p then (hull, acc.2 ++ ["inside"])
        else (incrStep hull p, acc.2 ++ ["tangents", "splice_done"]))
      ([], [])).2 ++ ["complete"]

/-!
## Concrete inputs used by the claim theorems and witnesses
-/

/-- The five-point square input of the repository's Graham test
(`test_graham_scan.py`) and of spec Scenario A. -/
def squareInput : List Point :=
  [(0, 0), (4, 0), (4, 4), (0, 4), (2, 2)]

/-- The seven-point input on which Chan's algorithm loses a hull vertex:
pairwise-distinct points, no three collinear. -/
def chanBugInput : List Point :=
  [(21, 34), (31, 4), (9, 14), (27, 0), (13, 10), (7, 28), (33, 30)]

/-!
## Claim theorems
-/

set_option maxRecDepth 1000000


/-- C4: for every input list of fewer than 3 points, each of the four hull
operations returns exactly the input sequence unchanged, and its recorded
trace for that invocation is empty. -/
theorem small_input_pass_through (ps : List Point) (h : ps.length < 3) :
    grahams_scan ps = ps ∧ graham_trace ps = [] ∧
    jarvis_march ps = ps ∧ jarvis_trace ps = [] ∧
    chans_algorithm ps = ps ∧ chan_trace ps = [] ∧
    incremental_convex_hull ps = ps ∧ incremental_trace ps = [] := by
  refine ⟨?_, ?_, ?_, ?_, ?_, ?_, ?_, ?_⟩ <;>
    simp [grahams_scan, graham_trace, jarvis_march, jarvis_trace,
      chans_algorithm, chan_trace, incremental_convex_hull, incremental_trace, h]

/-- Witness for `small_input_pass_through` at the two-point input
`[(0,0), (1,1)]`. -/
theorem small_input_pass_through_witness :
    ([((0 : ℚ), (0 : ℚ)), (1, 1)] : List Point).length < 3 ∧
      grahams_scan [((0 : ℚ), (0 : ℚ)), (1, 1)] = [((0 : ℚ), (0 : ℚ)), (1, 1)] :=
  ⟨by decide, (small_input_pass_through [((0 : ℚ), (0 : ℚ)), (1, 1)] (by decide)).1⟩

unseal Nat.gcd Rat.mul Rat.add Rat.sub Rat.inv in
/-- C1 (failing input): on the square input, `grahams_scan` (and
`chans_algorithm`) return the hull in clockwise order: the consecutive
vertex triple `(0,0), (0,4), (4,4)` of the returned hull has strictly
negative orientation, contradicting the claimed counter-clockwise
(`orientation ≥ 0`) output contract; `jarvis_march` returns the same
vertices counter-clockwise. -/
theorem graham_square_clockwise :
    grahams_scan squareInput = [(0, 0), (0, 4), (4, 4), (4, 0)] ∧
    chans_algorithm squareInput = [(0, 0), (0, 4), (4, 4), (4, 0)] ∧
    jarvis_march squareInput = [(0, 0), (4, 0), (4, 4), (0, 4)] ∧
    orientation (0, 0) (0, 4) (4, 4) < 0 ∧
    3 ≤ squareInput.length := by
  decide

unseal Nat.gcd Rat.mul Rat.add Rat.sub Rat.inv in
/-- C8 (failing input): on the three-point input `[(0,0), (0,0), (0,0)]`
`grahams_scan` returns `[(0,0), (0,0)]`, a hull that contains the point
`(0,0)` twice, contradicting the claimed removal of duplicate points. -/
theorem graham_duplicate_retained :
    grahams_scan [((0 : ℚ), (0 : ℚ)), (0, 0), (0, 0)] = [(0, 0), (0, 0)] ∧
    ¬ (grahams_scan [((0 : ℚ), (0 : ℚ)), (0, 0), (0, 0)]).Nodup ∧
    3 ≤ ([((0 : ℚ), (0 : ℚ)), (0, 0), (0, 0)] : List Point).length := by
  decide


unseal Nat.gcd Rat.mul Rat.add Rat.sub Rat.inv in
/-- C2 (failing input): `chanBugInput` is duplicate-free with no three
points collinear, `grahams_scan`, `jarvis_march` and
`incremental_convex_hull` all return its full 7-point vertex set, but
`chans_algorithm` returns only 6 of the 7 vertices, dropping `(13,10)`:
the four algorithms do not agree as sets. -/
theorem chan_disagrees_on_distinct_noncollinear_input :
    chanBugInput.Nodup ∧
    (∀ p ∈ chanBugInput, ∀ q ∈ chanBugInput, ∀ r ∈ chanBugInput,
      p ≠ q → q ≠ r → p ≠ r → orientationRaw p q r ≠ 0) ∧
    sortPoints (grahams_scan chanBugInput).dedup = sortPoints chanBugInput.dedup ∧
    sortPoints (jarvis_march chanBugInput).dedup = sortPoints chanBugInput.dedup ∧
    sortPoints (incremental_convex_hull chanBugInput).dedup = sortPoints chanBugInput.dedup ∧
    chans_algorithm chanBugInput = [(7, 28), (21, 34), (33, 30), (31, 4), (27, 0), (9, 14)] ∧
    (13, 10) ∈ grahams_scan chanBugInput ∧ (13, 10) ∉ chans_algorithm chanBugInput := by
  decide

/-- Reflexivity of the lexicographic order. -/
theorem ptLeP_refl (a : Point) : ptLeP a a :=
  Or.inr ⟨rfl, le_refl _⟩

/-- Transitivity of the lexicographic order. -/
theorem ptLeP_trans {a b c : Point} (h1 : ptLeP a b) (h2 : ptLeP b c) : ptLeP a c := by
  unfold ptLeP at *
  rcases h1 with h1 | ⟨e1, l1⟩ <;> rcases h2 with h2 | ⟨e2, l2⟩
  · exact Or.inl (h1.trans h2)
  · exact Or.inl (by rw [← e2]; exact h1)
  · exact Or.inl (by rw [e1]; exact h2)
  · exact Or.inr ⟨e1.trans e2, l1.trans l2⟩

/-- Totality of the lexicographic order. -/
theorem ptLeP_total (a b : Point) : ptLeP a b ∨ ptLeP b a := by
  unfold ptLeP
  rcases lt_trichotomy a.1 b.1 with h | h | h
  · exact Or.inl (Or.inl h)
  · rcases le_total a.2 b.2 with g | g
    · exact Or.inl (Or.inr ⟨h, g⟩)
    · exact Or.inr (Or.inr ⟨h.symm, g⟩)
  · exact Or.inr (Or.inl h)

/-- Antisymmetry of the lexicographic order. -/
theorem ptLeP_antisymm {a b : Point} (h1 : ptLeP a b) (h2 : ptLeP b a) : a = b := by
  unfold ptLeP at *
  have e1 : a.1 = b.1 := by rcases h1 with h1 | ⟨e1, _⟩ <;> rcases h2 with h2 | ⟨e2, _⟩ <;> linarith
  have e2 : a.2 = b.2 := by
    rcases h1 with h1 | ⟨_, l1⟩ <;> rcases h2 with h2 | ⟨_, l2⟩ <;> linarith
  exact Prod.ext e1 e2

instance : IsTrans Point ptLeP := ⟨fun _ _ _ => ptLeP_trans⟩

instance : IsTotal Point ptLeP := ⟨ptLeP_total⟩

instance : IsAntisymm Point ptLeP := ⟨fun _ _ => ptLeP_antisymm⟩

/-- A lexicographically-smaller-or-equal point is not strictly larger. -/
theorem not_ptLt_of_ptLeP {a b : Point} (h : ptLeP a b) : ¬ ptLt b a := by
  unfold ptLeP at h; unfold ptLt
  rintro (g | ⟨e, g⟩) <;> rcases h with h | ⟨e', h⟩ <;> linarith

/-- Not strictly smaller means lexicographically larger or equal. -/
theorem ptLeP_of_not_ptLt {a b : Point} (h : ¬ ptLt a b) : ptLeP b a := by
  unfold ptLt at h; unfold ptLeP
  push_neg at h
  rcases eq_or_lt_of_le h.1 with e | g
  · exact Or.inr ⟨e, h.2 e.symm⟩
  · exact Or.inl g

/-- Strictly smaller implies smaller-or-equal. -/
theorem ptLeP_of_ptLt {a b : Point} (h : ptLt a b) : ptLeP a b := by
  unfold ptLt at h; unfold ptLeP
  rcases h with h | ⟨e, h⟩
  · exact Or.inl h
  · exact Or.inr ⟨e, h.le⟩

/-- The Graham pop loop never empties a non-empty stack. -/
theorem popWhile_ne_nil (p : Point) : ∀ st : List Point, st ≠ [] → popWhile p st ≠ [] := by
  intro st
  induction st with
  | nil => simp
  | cons t rest ih =>
    intro _
    cases rest with
    | nil => simp [popWhile]
    | cons s r =>
      rw [popWhile]
      split
      · exact ih (by simp)
      · simp

/-- The Graham pop loop removes only from the top: the bottom element is
unchanged. -/
theorem popWhile_getLast? (p : Point) : ∀ st : List Point, (popWhile p st).getLast? = st.getLast? := by
  intro st
  induction st with
  | nil => rfl
  | cons t rest ih =>
    cases rest with
    | nil => rfl
    | cons s r =>
      rw [popWhile]
      split
      · rw [ih, List.getLast?_cons_cons]
      · rfl

/-- One chain step keeps the stack non-empty. -/
theorem scanStep_ne_nil (st : List Point) (p : Point) : scanStep st p ≠ [] := by
  simp [scanStep]

/-- One chain step on a non-empty stack keeps the bottom element. -/
theorem scanStep_getLast? (st : List Point) (p : Point) (h : st ≠ []) :
    (scanStep st p).getLast? = st.getLast? := by
  unfold scanStep
  have h2 := popWhile_ne_nil p st h
  cases hl : popWhile p st with
  | nil => exact absurd hl h2
  | cons x xs => rw [List.getLast?_cons_cons, ← hl, popWhile_getLast?]

/-- One chain step on a non-empty stack leaves at least two elements. -/
theorem scanStep_length2 (st : List Point) (p : Point) (h : st ≠ []) :
    2 ≤ (scanStep st p).length := by
  unfold scanStep
  have h2 := popWhile_ne_nil p st h
  cases hl : popWhile p st with
  | nil => exact absurd hl h2
  | cons x xs => simp

/-- A chain pass keeps the bottom element of a non-empty starting stack. -/
theorem foldl_scanStep_getLast? :
    ∀ (t : List Point) (st : List Point), st ≠ [] →
      (t.foldl scanStep st).getLast? = st.getLast? ∧ t.foldl scanStep st ≠ [] := by
  intro t
  induction t with
  | nil => exact fun st h => ⟨rfl, h⟩
  | cons p rest ih =>
    intro st h
    have h1 := scanStep_ne_nil st p
    have h2 := ih (scanStep st p) h1
    simp only [List.foldl_cons]
    exact ⟨h2.1.trans (scanStep_getLast? st p h), h2.2⟩

/-- A chain pass keeps a stack of at least two elements at least two long. -/
theorem foldl_scanStep_length2 :
    ∀ (t : List Point) (st : List Point), 2 ≤ st.length →
      2 ≤ (t.foldl scanStep st).length := by
  intro t
  induction t with
  | nil => exact fun st h => h
  | cons p rest ih =>
    intro st h
    simp only [List.foldl_cons]
    exact ih _ (scanStep_length2 st p (by cases st <;> simp_all))

/-- A full chain pass over at least two points ends bottomed at the first
point and at least two points tall. -/
theorem buildChain_spec (a b : Point) (t : List Point) :
    (buildChain (a :: b :: t)).getLast? = some a ∧ 2 ≤ (buildChain (a :: b :: t)).length := by
  unfold buildChain
  simp only [List.foldl_cons]
  have e1 : scanStep [] a = [a] := by simp [scanStep, popWhile]
  have e2 : scanStep [a] b = [b, a] := by simp [scanStep, popWhile]
  rw [e1, e2]
  constructor
  · exact (foldl_scanStep_getLast? t [b, a] (by simp)).1.trans (by simp)
  · exact foldl_scanStep_length2 t [b, a] (by simp)

/-- Dropping the last element of a list with at least two elements keeps
its head. -/
theorem head?_dropLast_of_two_le :
    ∀ l : List Point, 2 ≤ l.length → l.dropLast.head? = l.head? := by
  intro l
  match l with
  | [] => simp
  | [x] => simp
  | x :: y :: t => intro _; rfl

/-- C10: for every input of at least 3 points, the first vertex of the hull
returned by `grahams_scan` is the lexicographically smallest input point
(minimum x, ties broken by minimum y): the sort places it first, the chain
passes never remove the bottom stack element, and the concatenation keeps
it at position 0. -/
theorem graham_first_vertex (ps : List Point) (h : 3 ≤ ps.length) :
    ∃ m, (grahams_scan ps).head? = some m ∧ m ∈ ps ∧ ∀ q ∈ ps, ¬ ptLt q m := by
  have hlen : (sortPoints ps).length = ps.length := by
    simp [sortPoints]
  obtain ⟨a, b, t, hs⟩ : ∃ a b t, sortPoints ps = a :: b :: t := by
    cases e : sortPoints ps with
    | nil => rw [e] at hlen; simp at hlen; omega
    | cons a rest =>
      cases rest with
      | nil => rw [e] at hlen; simp at hlen; omega
      | cons b t => exact ⟨a, b, t, rfl⟩
  refine ⟨a, ?_, ?_, ?_⟩
  · rw [grahams_scan, if_neg (by omega)]
    simp only
    rw [hs]
    obtain ⟨hlast, hlen2⟩ := buildChain_spec a b t
    have hup : (buildChain (a :: b :: t)).reverse.head? = some a := by
      rw [List.head?_reverse]; exact hlast
    have hlen3 : 2 ≤ (buildChain (a :: b :: t)).reverse.length := by
      simpa using hlen2
    rw [List.head?_append_of_ne_nil, head?_dropLast_of_two_le _ hlen3, hup]
    intro hnil
    have := congrArg List.length hnil
    simp [List.length_dropLast] at this
    omega
  · have ha : a ∈ sortPoints ps := by rw [hs]; simp
    unfold sortPoints at ha
    exact (List.perm_insertionSort ptLeP ps).subset ha
  · intro q hq
    have hq' : q ∈ sortPoints ps := by
      unfold sortPoints
      exact ((List.perm_insertionSort ptLeP ps).mem_iff).mpr hq
    have hsort : (sortPoints ps).Sorted ptLeP := List.sorted_insertionSort ptLeP ps
    rw [hs] at hq' hsort
    rcases List.mem_cons.mp hq' with rfl | hq''
    · exact not_ptLt_of_ptLeP (ptLeP_refl q)
    · exact not_ptLt_of_ptLeP (List.rel_of_sorted_cons hsort q hq'')

/-- Witness for `graham_first_vertex` at the square input. -/
theorem graham_first_vertex_witness :
    3 ≤ squareInput.length ∧
      ∃ m, (grahams_scan squareInput).head? = some m ∧ m ∈ squareInput ∧
        ∀ q ∈ squareInput, ¬ ptLt q m :=
  ⟨by decide, graham_first_vertex squareInput (by decide)⟩

/-- In-range indexing lands in the list. -/
theorem pget_mem {ps : List Point} {i : Nat} (h : i < ps.length) : pget ps i ∈ ps := by
  unfold pget
  rw [List.getD_eq_getElem ps (0, 0) h]
  exact List.getElem_mem h

/-- The leftmost-index fold of `jarvis_march` yields an index among the
scanned ones whose point is lexicographically minimal among those scanned. -/
theorem leftmostFold_spec (ps : List Point) :
    ∀ (is : List Nat) (best : Nat),
      ((is.foldl (fun best i =>
          if (pget ps i).1 < (pget ps best).1 then i
          else if (pget ps i).1 = (pget ps best).1 ∧ (pget ps i).2 < (pget ps best).2 then i
          else best) best) = best ∨
        (is.foldl (fun best i =>
          if (pget ps i).1 < (pget ps best).1 then i
          else if (pget ps i).1 = (pget ps best).1 ∧ (pget ps i).2 < (pget ps best).2 then i
          else best) best) ∈ is) ∧
      ptLeP (pget ps (is.foldl (fun best i =>
          if (pget ps i).1 < (pget ps best).1 then i
          else if (pget ps i).1 = (pget ps best).1 ∧ (pget ps i).2 < (pget ps best).2 then i
          else best) best)) (pget ps best) ∧
      ∀ i ∈ is, ptLeP (pget ps (is.foldl (fun best i =>
          if (pget ps i).1 < (pget ps best).1 then i
          else if (pget ps i).1 = (pget ps best).1 ∧ (pget ps i).2 < (pget ps best).2 then i
          else best) best)) (pget ps i) := by
  intro is
  induction is with
  | nil => exact fun best => ⟨Or.inl rfl, ptLeP_refl _, by simp⟩
  | cons i rest ih =>
    intro best
    simp only [List.foldl_cons]
    set best1 := (fun best i =>
        if (pget ps i).1 < (pget ps best).1 then i
        else if (pget ps i).1 = (pget ps best).1 ∧ (pget ps i).2 < (pget ps best).2 then i
        else best) best i with hb1
    have hcase : (best1 = i ∧ ptLt (pget ps i) (pget ps best)) ∨
        (best1 = best ∧ ¬ ptLt (pget ps i) (pget ps best)) := by
      rw [hb1]
      by_cases h1 : (pget ps i).1 < (pget ps best).1
      · exact Or.inl ⟨by simp [h1], Or.inl h1⟩
      · by_cases h2 : (pget ps i).1 = (pget ps best).1 ∧ (pget ps i).2 < (pget ps best).2
        · exact Or.inl ⟨by simp [h1, h2], Or.inr h2⟩
        · refine Or.inr ⟨by simp [h1, h2], ?_⟩
          unfold ptLt
          tauto
    obtain ⟨hmem, hle, hall⟩ := ih best1
    have hle1 : ptLeP (pget ps best1) (pget ps best) := by
      rcases hcase with ⟨e, hlt⟩ | ⟨e, _⟩
      · rw [e]; exact ptLeP_of_ptLt hlt
      · rw [e]; exact ptLeP_refl _
    have hlei : ptLeP (pget ps best1) (pget ps i) := by
      rcases hcase with ⟨e, hlt⟩ | ⟨e, hnlt⟩
      · rw [e]; exact ptLeP_refl _
      · rw [e]; exact ptLeP_of_not_ptLt hnlt
    refine ⟨?_, ptLeP_trans hle hle1, ?_⟩
    · rcases hmem with e | e
      · rcases hcase with ⟨e1, _⟩ | ⟨e1, _⟩
        · exact Or.inr (by rw [e, e1]; exact List.mem_cons_self i rest)
        · exact Or.inl (by rw [e, e1])
      · exact Or.inr (List.mem_cons_of_mem i e)
    · intro j hj
      rcases List.mem_cons.mp hj with rfl | hj'
      · exact ptLeP_trans hle hlei
      · exact hall j hj'

/-- The `jarvis_march` starting index is in range and its point is
lexicographically minimal among the input points. -/
theorem leftmostIdx_spec (ps : List Point) (h : ps ≠ []) :
    leftmostIdx ps < ps.length ∧ ∀ q ∈ ps, ¬ ptLt q (pget ps (leftmostIdx ps)) := by
  have hn : 1 ≤ ps.length := by
    cases ps
    · exact absurd rfl h
    · simp
  obtain ⟨hmem, _, hall⟩ := leftmostFold_spec ps (List.range' 1 (ps.length - 1)) 0
  have hb : leftmostIdx ps < ps.length := by
    unfold leftmostIdx
    rcases hmem with e | e
    · rw [e]; omega
    · have := List.mem_range'_1.mp e
      omega
  refine ⟨hb, ?_⟩
  intro q hq
  obtain ⟨j, hj, rfl⟩ := List.mem_iff_getElem.mp hq
  have hq' : ps[j] = pget ps j := by
    unfold pget
    rw [List.getD_eq_getElem ps (0, 0) hj]
  rw [hq']
  rcases Nat.eq_zero_or_pos j with rfl | hj1
  · exact not_ptLt_of_ptLeP (by unfold leftmostIdx; exact (leftmostFold_spec ps _ 0).2.1)
  · have hjr : j ∈ List.range' 1 (ps.length - 1) := List.mem_range'_1.mpr ⟨hj1, by omega⟩
    exact not_ptLt_of_ptLeP (by unfold leftmostIdx; exact hall j hjr)

/-- The gift-wrap walk grows its hull by one point per iteration and its
safety bound stops it at `n + 1` points. -/
theorem jarvisLoop_length (ps : List Point) (l : Nat) :
    ∀ (fuel p : Nat) (hull : List Point), hull.length ≤ ps.length →
      (jarvisLoop ps l fuel p hull).length ≤ ps.length + 1 := by
  intro fuel
  induction fuel with
  | zero =>
    intro p hull hh
    rw [jarvisLoop]
    omega
  | succ f ih =>
    intro p hull hh
    rw [jarvisLoop]
    simp only [List.length_append, List.length_cons, List.length_nil]
    split
    · simp; omega
    · split
      · rename_i hlen
        simp at hlen ⊢
        omega
      · rename_i hlen
        simp at hlen
        exact ih _ _ (by simp; omega)

/-- C7: `jarvis_march` terminates on every input (it is a total function of
its fuel-free loop guards): the walk stops on returning to its starting
point, which is the lexicographically minimal input point, or once the
accumulated hull exceeds `n` points, so the returned hull has at most
`n + 1` points. -/
theorem jarvis_bounded (ps : List Point) :
    (jarvis_march ps).length ≤ ps.length + 1 ∧
      (ps ≠ [] → pget ps (leftmostIdx ps) ∈ ps ∧
        ∀ q ∈ ps, ¬ ptLt q (pget ps (leftmostIdx ps))) := by
  constructor
  · unfold jarvis_march
    split
    · omega
    · exact jarvisLoop_length ps (leftmostIdx ps) (ps.length + 1) (leftmostIdx ps) [] (by simp)
  · intro h
    obtain ⟨hb, hmin⟩ := leftmostIdx_spec ps h
    exact ⟨pget_mem hb, hmin⟩

/-- Witness for `jarvis_bounded` at the square input. -/
theorem jarvis_bounded_witness :
    squareInput ≠ [] ∧ (jarvis_march squareInput).length ≤ squareInput.length + 1 ∧
      pget squareInput (leftmostIdx squareInput) ∈ squareInput :=
  ⟨by decide, (jarvis_bounded squareInput).1,
    ((jarvis_bounded squareInput).2 (by decide)).1⟩

/-- A fold whose step always returns either the accumulator or the new
element ends at the start value or at a list element. -/
theorem foldl_choice {α : Type} (f : α → α → α) (hf : ∀ q i, f q i = q ∨ f q i = i) :
    ∀ (l : List α) (q : α), l.foldl f q = q ∨ l.foldl f q ∈ l := by
  intro l
  induction l with
  | nil => exact fun q => Or.inl rfl
  | cons i rest ih =>
    intro q
    simp only [List.foldl_cons]
    rcases ih (f q i) with e | e
    · rcases hf q i with e1 | e1
      · rw [e, e1]; exact Or.inl rfl
      · rw [e, e1]; exact Or.inr (List.mem_cons_self i rest)
    · exact Or.inr (List.mem_cons_of_mem i e)

/-- The Graham pop loop returns a suffix of its stack. -/
theorem popWhile_subset (p : Point) : ∀ st : List Point, ∀ v ∈ popWhile p st, v ∈ st := by
  intro st
  induction st with
  | nil => simp [popWhile]
  | cons t rest ih =>
    cases rest with
    | nil => simp [popWhile]
    | cons s r =>
      intro v hv
      rw [popWhile] at hv
      split at hv
      · exact List.mem_cons_of_mem t (ih v hv)
      · exact hv

/-- A chain pass over points of `S`, started from a stack inside `S`, stays
inside `S`. -/
theorem foldl_scanStep_subset (S : List Point) :
    ∀ (t : List Point) (st : List Point), (∀ v ∈ st, v ∈ S) → (∀ x ∈ t, x ∈ S) →
      ∀ v ∈ t.foldl scanStep st, v ∈ S := by
  intro t
  induction t with
  | nil => exact fun st hst _ => hst
  | cons p rest ih =>
    intro st hst ht v hv
    simp only [List.foldl_cons] at hv
    refine ih (scanStep st p) ?_ (fun x hx => ht x (List.mem_cons_of_mem p hx)) v hv
    intro w hw
    unfold scanStep at hw
    rcases List.mem_cons.mp hw with e | hw'
    · rw [e]; exact ht p (List.mem_cons_self p rest)
    · exact hst w (popWhile_subset p st w hw')

/-- C3 for Graham's scan: every returned hull vertex is an input point. -/
theorem grahams_scan_subset (ps : List Point) : ∀ v ∈ grahams_scan ps, v ∈ ps := by
  intro v hv
  unfold grahams_scan at hv
  split at hv
  · exact hv
  · have hsort : ∀ x ∈ sortPoints ps, x ∈ ps := by
      intro x hx
      unfold sortPoints at hx
      exact (List.perm_insertionSort ptLeP ps).subset hx
    have hchain1 : ∀ w ∈ buildChain (sortPoints ps), w ∈ ps :=
      foldl_scanStep_subset ps (sortPoints ps) [] (by simp) hsort
    have hchain2 : ∀ w ∈ buildChain (sortPoints ps).reverse, w ∈ ps :=
      foldl_scanStep_subset ps (sortPoints ps).reverse [] (by simp)
        (fun x hx => hsort x (List.mem_reverse.mp hx))
    rcases List.mem_append.mp hv with h | h
    · exact hchain1 v (List.mem_reverse.mp (List.dropLast_subset _ h))
    · exact hchain2 v (List.mem_reverse.mp (List.dropLast_subset _ h))

/-- The candidate scan of `jarvis_march` returns an in-range index. -/
theorem jarvisCandidate_lt (ps : List Point) (p : Nat) (h : ps ≠ []) :
    jarvisCandidate ps p < ps.length := by
  have hn : 0 < ps.length := List.length_pos.mpr h
  unfold jarvisCandidate
  rcases foldl_choice
      (fun q i =>
        if i = p then q
        else
          let o := orientation (pget ps p) (pget ps i) (pget ps q)
          if o > 0 then i
          else if o = 0 ∧
              distance_squared (pget ps p) (pget ps i) >
                distance_squared (pget ps p) (pget ps q) then i
          else q)
      (fun q i => by
        by_cases h1 : i = p
        · exact Or.inl (by simp [h1])
        · by_cases h2 : orientation (pget ps p) (pget ps i) (pget ps q) > 0
          · exact Or.inr (by simp [h1, h2])
          · by_cases h3 : orientation (pget ps p) (pget ps i) (pget ps q) = 0 ∧
              distance_squared (pget ps p) (pget ps i) >
                distance_squared (pget ps p) (pget ps q)
            · exact Or.inr (by simp [h1, h2, h3])
            · exact Or.inl (by simp [h1, h2, h3]))
      (List.range ps.length) ((p + 1) % ps.length) with e | e
  · rw [e]; exact Nat.mod_lt _ hn
  · exact List.mem_range.mp e

/-- The gift-wrap walk only appends input points. -/
theorem jarvisLoop_subset (ps : List Point) (l : Nat) :
    ∀ (fuel p : Nat) (hull : List Point), p < ps.length → (∀ v ∈ hull, v ∈ ps) →
      ∀ v ∈ jarvisLoop ps l fuel p hull, v ∈ ps := by
  intro fuel
  induction fuel with
  | zero =>
    intro p hull _ hh v hv
    rw [jarvisLoop] at hv
    exact hh v hv
  | succ f ih =>
    intro p hull hp hh v hv
    have hne : ps ≠ [] := by intro e; rw [e] at hp; simp at hp
    have happ : ∀ w ∈ hull ++ [pget ps p], w ∈ ps := by
      intro w hw
      rcases List.mem_append.mp hw with h | h
      · exact hh w h
      · rw [List.mem_singleton.mp h]; exact pget_mem hp
    rw [jarvisLoop] at hv
    split at hv
    · exact happ v hv
    · split at hv
      · exact happ v hv
      · exact ih (jarvisCandidate ps p) _ (jarvisCandidate_lt ps p hne) happ v hv

/-- C3 for Jarvis march: every returned hull vertex is an input point. -/
theorem jarvis_march_subset (ps : List Point) : ∀ v ∈ jarvis_march ps, v ∈ ps := by
  intro v hv
  unfold jarvis_march at hv
  split at hv
  · exact hv
  · rename_i hlen
    have hne : ps ≠ [] := by intro e; rw [e] at hlen; simp at hlen
    exact jarvisLoop_subset ps (leftmostIdx ps) (ps.length + 1) (leftmostIdx ps) []
      (leftmostIdx_spec ps hne).1 (by simp) v hv

/-- The brute-force tangent choice is an element of a non-empty hull. -/
theorem find_best_among_few_some (ext : Point) :
    ∀ small : List Point, small ≠ [] →
      ∃ v, find_best_among_few ext small = some v ∧ v ∈ small := by
  intro small hne
  cases small with
  | nil => exact absurd rfl hne
  | cons h1 rest =>
    cases rest with
    | nil => exact ⟨h1, rfl, by simp⟩
    | cons h2 t =>
      refine ⟨_, rfl, ?_⟩
      rcases foldl_choice (fun best c => if is_better_tangent ext c (some best) then c else best)
          (fun q i => by
            by_cases hb : is_better_tangent ext i (some q)
            · exact Or.inr (by simp [hb])
            · exact Or.inl (by simp [hb]))
          (h2 :: t) h1 with e | e
      · rw [e]; exact List.mem_cons_self h1 (h2 :: t)
      · exact List.mem_cons_of_mem h1 e

/-- The ternary-search loop keeps both bounds below any bound its starting
bounds are below. -/
theorem ternaryLoop_le (better : Nat → Nat → Bool) (B : Nat) :
    ∀ (fuel l r : Nat), l ≤ B → r ≤ B →
      (ternaryLoop better fuel l r).1 ≤ B ∧ (ternaryLoop better fuel l r).2 ≤ B := by
  intro fuel
  induction fuel with
  | zero => intro l r hl hr; rw [ternaryLoop]; exact ⟨hl, hr⟩
  | succ f ih =>
    intro l r hl hr
    rw [ternaryLoop]
    have hd : (r - l) / 3 ≤ r - l := Nat.div_le_self _ _
    split
    · split
      · exact ih l (r - (r - l) / 3) hl (by omega)
      · exact ih (l + (r - l) / 3) r (by omega) hr
    · exact ⟨hl, hr⟩

/-- The linear tangent scan stays below any bound covering its range. -/
theorem tangentLinear_le (better : Nat → Nat → Bool) (l r B : Nat)
    (hl : l ≤ B) (hr : r ≤ B) : tangentLinear better l r ≤ B := by
  unfold tangentLinear
  rcases foldl_choice (fun best idx => if better idx best then idx else best)
      (fun q i => by
        by_cases hb : better i q
        · exact Or.inr (by simp [hb])
        · exact Or.inl (by simp [hb]))
      (List.range' l (r + 1 - l)) l with e | e
  · rw [e]; exact hl
  · have := List.mem_range'_1.mp e; omega

/-- An if-then-else of two in-range values is in range. -/
theorem ite_lt {n a b : Nat} (c : Prop) [Decidable c] (ha : a < n) (hb : b < n) :
    (if c then a else b) < n := by
  split
  · exact ha
  · exact hb

/-- The search phase of `find_rightmost_tangent` returns an in-range
index. -/
theorem frtSearchIdx_lt (p : Point) (hull : List Point) (h : hull ≠ []) :
    frtSearchIdx p hull < hull.length := by
  have hn : 0 < hull.length := List.length_pos.mpr h
  have hlr := ternaryLoop_le (is_better_tangent_point p hull) (hull.length - 1)
    hull.length 0 (hull.length - 1) (by omega) (by omega)
  have hb0 := tangentLinear_le (is_better_tangent_point p hull) _ _ (hull.length - 1)
    hlr.1 hlr.2
  unfold frtSearchIdx
  apply ite_lt
  · exact Nat.mod_lt _ hn
  · apply ite_lt
    · exact Nat.mod_lt _ hn
    · omega

/-- C5 core: `find_rightmost_tangent` returns `None` exactly on an empty
hull or an absent external point, and otherwise returns a vertex of the
hull. -/
theorem find_rightmost_tangent_spec (ext : Option Point) (hull : List Point) :
    (find_rightmost_tangent ext hull = none ↔ hull = [] ∨ ext = none) ∧
      (∀ v, find_rightmost_tangent ext hull = some v → v ∈ hull) := by
  cases ext with
  | none =>
    simp [find_rightmost_tangent]
  | some p =>
    by_cases hh : hull = []
    · simp [find_rightmost_tangent, hh]
    · simp only [find_rightmost_tangent]
      rw [if_neg hh]
      constructor
      · constructor
        · intro hnone
          split at hnone
          · obtain ⟨v, hv, _⟩ := find_best_among_few_some p hull hh
            rw [hv] at hnone
            exact absurd hnone (by simp)
          · exact absurd hnone (by simp)
        · rintro (he | he)
          · exact absurd he hh
          · exact absurd he (by simp)
      · intro v hv
        split at hv
        · obtain ⟨w, hw, hwm⟩ := find_best_among_few_some p hull hh
          rw [hw] at hv
          rw [← Option.some_inj.mp hv]
          exact hwm
        · rw [← Option.some_inj.mp hv]
          exact pget_mem (frtSearchIdx_lt p hull hh)

/-- Every group produced by the splitting fold consists of input points. -/
theorem chunksOfAux_subset (m : Nat) :
    ∀ (fuel : Nat) (l : List Point) (g : List Point), g ∈ chunksOfAux m fuel l →
      ∀ v ∈ g, v ∈ l := by
  intro fuel
  induction fuel with
  | zero => intro l g hg; simp [chunksOfAux] at hg
  | succ f ih =>
    intro l g hg v hv
    cases l with
    | nil => simp [chunksOfAux] at hg
    | cons x xs =>
      rw [chunksOfAux] at hg
      rcases List.mem_cons.mp hg with e | hg'
      · rw [e] at hv
        exact List.take_subset m (x :: xs) hv
      · exact List.drop_subset m (x :: xs) (ih ((x :: xs).drop m) g hg' v hv)

/-- Every group produced by `chunksOf` consists of input points. -/
theorem chunksOf_subset (m : Nat) (l : List Point) (g : List Point)
    (hg : g ∈ chunksOf m l) : ∀ v ∈ g, v ∈ l := by
  unfold chunksOf at hg
  split at hg
  · simp at hg
  · exact chunksOfAux_subset m l.length l g hg

/-- `min(points, key=...)` returns an element of a non-empty list. -/
theorem minLex_mem (ps : List Point) (h : ps ≠ []) : minLex ps ∈ ps := by
  cases ps with
  | nil => exact absurd rfl h
  | cons x xs =>
    simp only [minLex]
    rcases foldl_choice (fun acc p => if ptLt p acc then p else acc)
        (fun q i => by
          by_cases hb : ptLt i q
          · exact Or.inr (by simp [hb])
          · exact Or.inl (by simp [hb]))
        xs x with e | e
    · rw [e]; exact List.mem_cons_self x xs
    · exact List.mem_cons_of_mem x e

/-- Considering one tangent candidate either keeps the best point or
adopts the candidate. -/
theorem chanConsider_cases (current : Point) (best tcOpt : Option Point) :
    chanConsider current best tcOpt = best ∨
      ∃ tc, tcOpt = some tc ∧ chanConsider current best tcOpt = some tc := by
  cases tcOpt with
  | none => exact Or.inl rfl
  | some tc =>
    simp only [chanConsider]
    by_cases he : tc = current
    · exact Or.inl (by rw [if_pos he])
    · rw [if_neg he]
      cases best with
      | none => exact Or.inr ⟨tc, rfl, rfl⟩
      | some np =>
        by_cases h1 : orientation current np tc > 0
        · exact Or.inr ⟨tc, rfl, by simp [h1]⟩
        · by_cases h2 : orientation current np tc = 0 ∧
              distance_squared current tc > distance_squared current np
          · exact Or.inr ⟨tc, rfl, by simp [h1, h2]⟩
          · exact Or.inl (by simp [h1, h2])

/-- A point selected by the Chan candidate scan lies in one of the
mini-hulls. -/
theorem chanNext_mem (miniHulls : List (List Point)) (current : Point) :
    ∀ np, chanNext miniHulls current = some np → ∃ mh ∈ miniHulls, np ∈ mh := by
  unfold chanNext
  suffices h : ∀ (l : List (List Point)) (acc : Option Point) (np : Point),
      l.foldl
        (fun best mh =>
          if mh = [] then best
          else chanConsider current best (find_rightmost_tangent (some current) mh))
        acc = some np →
        acc = some np ∨ ∃ mh ∈ l, np ∈ mh by
    intro np hnp
    rcases h miniHulls none np hnp with e | e
    · exact absurd e (by simp)
    · exact e
  intro l
  induction l with
  | nil => exact fun acc np e => Or.inl e
  | cons mh rest ih =>
    intro acc np hnp
    simp only [List.foldl_cons] at hnp
    rcases ih _ np hnp with e | e
    · by_cases hmh : mh = []
      · rw [if_pos hmh] at e
        exact Or.inl e
      · rw [if_neg hmh] at e
        rcases chanConsider_cases current acc (find_rightmost_tangent (some current) mh)
          with e1 | ⟨tc, htc, e1⟩
        · rw [e1] at e; exact Or.inl e
        · rw [e1] at e
          have htcm : tc ∈ mh := (find_rightmost_tangent_spec (some current) mh).2 tc htc
          exact Or.inr ⟨mh, List.mem_cons_self mh rest,
            by rw [← Option.some_inj.mp e]; exact htcm⟩
    · obtain ⟨mh', hmh', hnp'⟩ := e
      exact Or.inr ⟨mh', List.mem_cons_of_mem mh hmh', hnp'⟩

/-- A successful Chan gift-wrap walk over mini-hulls inside `S`, started
inside `S`, returns a hull inside `S`. -/
theorem chanWalk_subset (miniHulls : List (List Point)) (leftmost : Point)
    (S : List Point) (hmh : ∀ mh ∈ miniHulls, ∀ v ∈ mh, v ∈ S) :
    ∀ (fuel : Nat) (cur : Point) (hull res : List Point), cur ∈ S →
      (∀ v ∈ hull, v ∈ S) → chanWalk miniHulls leftmost fuel cur hull = some res →
      ∀ v ∈ res, v ∈ S := by
  intro fuel
  induction fuel with
  | zero => intro cur hull res _ _ h; simp [chanWalk] at h
  | succ f ih =>
    intro cur hull res hcur hhull hres v hv
    rw [chanWalk] at hres
    have happ : ∀ w ∈ hull ++ [cur], w ∈ S := by
      intro w hw
      rcases List.mem_append.mp hw with h | h
      · exact hhull w h
      · rw [List.mem_singleton.mp h]; exact hcur
    split at hres
    · exact absurd hres (by simp)
    · rename_i np hnp
      have hnpS : np ∈ S := by
        obtain ⟨mh, hm, hin⟩ := chanNext_mem miniHulls cur np hnp
        exact hmh mh hm np hin
      split at hres
      · rw [← Option.some_inj.mp hres] at hv
        exact happ v hv
      · exact ih np (hull ++ [cur]) res hnpS happ hres v hv

/-- C3 for Chan's algorithm: every returned hull vertex is an input
point. -/
theorem chans_algorithm_subset (ps : List Point) : ∀ v ∈ chans_algorithm ps, v ∈ ps := by
  intro v hv
  unfold chans_algorithm at hv
  split at hv
  · exact hv
  · rename_i hlen
    have hne : ps ≠ [] := by intro e; rw [e] at hlen; simp at hlen
    revert hv
    induction chanTList ps.length with
    | nil => exact fun hv => grahams_scan_subset ps v hv
    | cons t ts ih =>
      intro hv
      rw [chanOuter] at hv
      cases hat : chanAttempt ps (chanM ps.length t) with
      | none => rw [hat] at hv; exact ih hv
      | some h =>
        rw [hat] at hv
        unfold chanAttempt at hat
        refine chanWalk_subset _ (minLex ps) ps ?_ _ (minLex ps) [] h
          (minLex_mem ps hne) (by simp) hat v hv
        intro mh hm w hw
        obtain ⟨g, hg, e⟩ := List.mem_map.mp hm
        have hgsub := chunksOf_subset (chanM ps.length t) ps g hg
        rw [← e] at hw
        split at hw
        · exact hgsub w (grahams_scan_subset g w hw)
        · exact hgsub w hw

/-- The monotone-chain pop loop of `build_ccw_hull` returns a suffix of its
stack. -/
theorem stripWhile_subset (p : Point) : ∀ st : List Point, ∀ v ∈ stripWhile p st, v ∈ st := by
  intro st
  induction st with
  | nil => simp [stripWhile]
  | cons t rest ih =>
    cases rest with
    | nil => simp [stripWhile]
    | cons s r =>
      intro v hv
      rw [stripWhile] at hv
      split at hv
      · exact List.mem_cons_of_mem t (ih v hv)
      · exact hv

/-- A `build_ccw_hull` chain pass over points of `S` stays inside `S`. -/
theorem foldl_stripStep_subset (S : List Point) :
    ∀ (t : List Point) (st : List Point), (∀ v ∈ st, v ∈ S) → (∀ x ∈ t, x ∈ S) →
      ∀ v ∈ t.foldl (fun st p => p :: stripWhile p st) st, v ∈ S := by
  intro t
  induction t with
  | nil => exact fun st hst _ => hst
  | cons p rest ih =>
    intro st hst ht v hv
    simp only [List.foldl_cons] at hv
    refine ih (p :: stripWhile p st) ?_ (fun x hx => ht x (List.mem_cons_of_mem p hx)) v hv
    intro w hw
    rcases List.mem_cons.mp hw with e | hw'
    · rw [e]; exact ht p (List.mem_cons_self p rest)
    · exact hst w (stripWhile_subset p st w hw')

/-- Every vertex of `build_ccw_hull` is an input point. -/
theorem build_ccw_hull_subset (ps : List Point) : ∀ v ∈ build_ccw_hull ps, v ∈ ps := by
  intro v hv
  simp only [build_ccw_hull] at hv
  split at hv
  · exact hv
  · split at hv
    · unfold sortPoints at hv
      exact List.dedup_subset ps ((List.perm_insertionSort ptLeP ps.dedup).subset hv)
    · have hpts : ∀ x ∈ sortPoints ps.dedup, x ∈ ps := by
        intro x hx
        unfold sortPoints at hx
        exact List.dedup_subset ps ((List.perm_insertionSort ptLeP ps.dedup).subset hx)
      rcases List.mem_append.mp hv with h | h
      · exact foldl_stripStep_subset ps _ [] (by simp) hpts v
          (List.mem_reverse.mp (List.dropLast_subset _ h))
      · exact foldl_stripStep_subset ps _ [] (by simp)
          (fun x hx => hpts x (List.mem_reverse.mp hx)) v
          (List.mem_reverse.mp (List.dropLast_subset _ h))

/-- The adjacent-duplicate cleanup fold only outputs points it was given. -/
theorem cleanedFold_subset :
    ∀ (l acc : List Point) (v : Point),
      v ∈ l.foldl (fun acc q => if acc.getLast? = some q then acc else acc ++ [q]) acc →
        v ∈ acc ∨ v ∈ l := by
  intro l
  induction l with
  | nil => exact fun acc v hv => Or.inl hv
  | cons q rest ih =>
    intro acc v hv
    simp only [List.foldl_cons] at hv
    rcases ih _ v hv with e | e
    · split at e
      · exact Or.inl e
      · rcases List.mem_append.mp e with h | h
        · exact Or.inl h
        · exact Or.inr (by rw [List.mem_singleton.mp h]; exact List.mem_cons_self q rest)
    · exact Or.inr (List.mem_cons_of_mem q e)

/-- The bounded tangent binary search keeps all indices in range. -/
theorem tangentSearchLoop_lt (found goLow : Nat → Bool) (n : Nat) (hn : 0 < n) :
    ∀ (fuel lo hi : Nat), lo < n → hi < n →
      (∀ mid, (tangentSearchLoop found goLow n fuel lo hi).1 = some mid → mid < n) ∧
        (tangentSearchLoop found goLow n fuel lo hi).2 < n := by
  intro fuel
  induction fuel with
  | zero =>
    intro lo hi hlo _
    rw [tangentSearchLoop]
    exact ⟨fun mid h => absurd h (by simp), hlo⟩
  | succ f ih =>
    intro lo hi hlo hhi
    simp only [tangentSearchLoop]
    split
    · exact ⟨fun mid h => by rw [← Option.some_inj.mp h]; omega, hlo⟩
    · by_cases hg : goLow ((lo + hi) / 2) = true
      · simp only [if_pos hg]
        by_cases hbr : (((lo + hi) / 2 + n - 1) % n + n - lo) % n ≤ 2
        · simp only [if_pos hbr]
          exact ⟨fun mid h => absurd h (by simp), hlo⟩
        · simp only [if_neg hbr]
          exact ih lo _ hlo (Nat.mod_lt _ hn)
      · simp only [if_neg hg]
        by_cases hbr : (hi + n - ((lo + hi) / 2 + 1) % n) % n ≤ 2
        · simp only [if_pos hbr]
          exact ⟨fun mid h => absurd h (by simp), Nat.mod_lt _ hn⟩
        · simp only [if_neg hbr]
          exact ih _ hi (Nat.mod_lt _ hn) hhi

/-- The brute-force tangent scan returns an in-range index. -/
theorem tangentBrute_lt (cond : Nat → Bool) (n lo : Nat) (hn : 0 < n) :
    tangentBrute cond n lo < n := by
  unfold tangentBrute
  cases hfind : (List.range n).find? (fun k => cond ((lo + k) % n)) with
  | none => exact hn
  | some k => exact Nat.mod_lt _ hn

/-- A defaulted optional value below a bound, given both parts are. -/
theorem getD_lt {n : Nat} (o : Option Nat) (d : Nat)
    (h1 : ∀ m, o = some m → m < n) (h2 : d < n) : o.getD d < n := by
  cases o with
  | none => exact h2
  | some m => exact h1 m rfl

/-- `right_tangent_index` returns an in-range index. -/
theorem right_tangent_index_lt (hull : List Point) (p : Point) (h : hull ≠ []) :
    right_tangent_index hull p < hull.length := by
  have hn : 0 < hull.length := List.length_pos.mpr h
  simp only [right_tangent_index]
  split
  · exact hn
  · apply getD_lt
    · exact (tangentSearchLoop_lt _ _ hull.length hn (tangentIters hull.length)
        0 (hull.length - 1) (by omega) (by omega)).1
    · exact tangentBrute_lt _ _ _ hn

/-- `left_tangent_index` returns an in-range index. -/
theorem left_tangent_index_lt (hull : List Point) (p : Point) (h : hull ≠ []) :
    left_tangent_index hull p < hull.length := by
  have hn : 0 < hull.length := List.length_pos.mpr h
  simp only [left_tangent_index]
  split
  · rename_i h2
    split
    · omega
    · rename_i h1
      apply ite_lt <;> omega
  · apply getD_lt
    · exact (tangentSearchLoop_lt _ _ hull.length hn (tangentIters hull.length)
        0 (hull.length - 1) (by omega) (by omega)).1
    · exact tangentBrute_lt _ _ _ hn

/-- The splice cleanup of `incrStep` (adjacent dedup plus the closing-point
pop) only outputs points of the spliced list. -/
theorem dedupResult_subset (nh : List Point) (v : Point) :
    v ∈ (if 2 ≤ (nh.foldl (fun acc q => if acc.getLast? = some q then acc else acc ++ [q])
            []).length ∧
          (nh.foldl (fun acc q => if acc.getLast? = some q then acc else acc ++ [q])
            []).head? =
          (nh.foldl (fun acc q => if acc.getLast? = some q then acc else acc ++ [q])
            []).getLast? then
        (nh.foldl (fun acc q => if acc.getLast? = some q then acc else acc ++ [q]) []).dropLast
      else nh.foldl (fun acc q => if acc.getLast? = some q then acc else acc ++ [q]) []) →
      v ∈ nh := by
  intro hv
  split at hv
  · rcases cleanedFold_subset nh [] v (List.dropLast_subset _ hv) with h | h
    · simp at h
    · exact h
  · rcases cleanedFold_subset nh [] v hv with h | h
    · simp at h
    · exact h

/-- One incremental insertion step only outputs previous hull vertices or
the new point. -/
theorem incrStep_subset (hull : List Point) (p : Point) :
    ∀ v ∈ incrStep hull p, v ∈ hull ∨ v = p := by
  intro v hv
  simp only [incrStep] at hv
  split at hv
  · rcases List.mem_append.mp (build_ccw_hull_subset (hull ++ [p]) v hv) with h | h
    · exact Or.inl h
    · exact Or.inr (List.mem_singleton.mp h)
  · split at hv
    · exact Or.inl hv
    · rename_i h3 _
      have hne : hull ≠ [] := by
        intro e
        rw [e] at h3
        simp at h3
      have hnewHull : ∀ w, w ∈
          (if right_tangent_index hull p ≤ left_tangent_index hull p then
            [pget hull (right_tangent_index hull p), p] ++
              hull.drop (left_tangent_index hull p) ++
              hull.take (right_tangent_index hull p)
          else
            [pget hull (right_tangent_index hull p), p] ++
              (hull.drop (left_tangent_index hull p)).take
                (right_tangent_index hull p + 1 - left_tangent_index hull p)) →
          w ∈ hull ∨ w = p := by
        intro w hw
        have hrt : pget hull (right_tangent_index hull p) ∈ hull :=
          pget_mem (right_tangent_index_lt hull p hne)
        split at hw
        · rcases List.mem_append.mp hw with hw1 | hw1
          · rcases List.mem_append.mp hw1 with hw2 | hw2
            · rcases List.mem_cons.mp hw2 with e | hw3
              · exact Or.inl (by rw [e]; exact hrt)
              · exact Or.inr (List.mem_singleton.mp hw3)
            · exact Or.inl (List.drop_subset _ hull hw2)
          · exact Or.inl (List.take_subset _ hull hw1)
        · rcases List.mem_append.mp hw with hw1 | hw1
          · rcases List.mem_cons.mp hw1 with e | hw3
            · exact Or.inl (by rw [e]; exact hrt)
            · exact Or.inr (List.mem_singleton.mp hw3)
          · exact Or.inl (List.drop_subset _ hull (List.take_subset _ _ hw1))
      exact hnewHull v (dedupResult_subset _ v hv)

/-- The incremental fold over points of `S`, from a hull inside `S`, stays
inside `S`. -/
theorem foldl_incrStep_subset (S : List Point) :
    ∀ (l : List Point) (hull : List Point), (∀ v ∈ hull, v ∈ S) → (∀ x ∈ l, x ∈ S) →
      ∀ v ∈ l.foldl incrStep hull, v ∈ S := by
  intro l
  induction l with
  | nil => exact fun hull hh _ => hh
  | cons p rest ih =>
    intro hull hh hl v hv
    simp only [List.foldl_cons] at hv
    refine ih (incrStep hull p) ?_ (fun x hx => hl x (List.mem_cons_of_mem p hx)) v hv
    intro w hw
    rcases incrStep_subset hull p w hw with h | h
    · exact hh w h
    · rw [h]; exact hl p (List.mem_cons_self p rest)

/-- C3 for the incremental maintainer: every returned hull vertex is an
input point. -/
theorem incremental_convex_hull_subset (ps : List Point) :
    ∀ v ∈ incremental_convex_hull ps, v ∈ ps := by
  intro v hv
  unfold incremental_convex_hull at hv
  split at hv
  · exact hv
  · exact foldl_incrStep_subset ps ps [] (by simp) (fun x hx => hx) v hv

/-- C3: for every input list, every vertex of the hull returned by each of
the four hull operations is an element of the input list. -/
theorem hull_vertices_subset (ps : List Point) :
    (∀ v ∈ grahams_scan ps, v ∈ ps) ∧ (∀ v ∈ jarvis_march ps, v ∈ ps) ∧
      (∀ v ∈ chans_algorithm ps, v ∈ ps) ∧ (∀ v ∈ incremental_convex_hull ps, v ∈ ps) :=
  ⟨grahams_scan_subset ps, jarvis_march_subset ps,
    chans_algorithm_subset ps, incremental_convex_hull_subset ps⟩

unseal Nat.gcd Rat.mul Rat.add Rat.sub Rat.inv in
/-- Witness for `hull_vertices_subset` at the square input: the vertex
`(0,0)` of each returned hull is an input point. -/
theorem hull_vertices_subset_witness :
    ((0 : ℚ), (0 : ℚ)) ∈ grahams_scan squareInput ∧
      ((0 : ℚ), (0 : ℚ)) ∈ jarvis_march squareInput ∧
      ((0 : ℚ), (0 : ℚ)) ∈ chans_algorithm squareInput ∧
      (((0 : ℚ), (0 : ℚ)) ∈ squareInput ∧ ((0 : ℚ), (0 : ℚ)) ∈ squareInput) :=
  ⟨by decide, by decide, by decide,
    (hull_vertices_subset squareInput).1 ((0 : ℚ), (0 : ℚ)) (by decide),
    (hull_vertices_subset squareInput).2.2.1 ((0 : ℚ), (0 : ℚ)) (by decide)⟩

/-- C5: `find_rightmost_tangent` returns the absent value exactly when the
hull is empty or the external point is absent; on a non-empty hull with a
present external point it returns a vertex of the hull. -/
theorem tangent_locator_contract (ext : Option Point) (hull : List Point) :
    (find_rightmost_tangent ext hull = none ↔ hull = [] ∨ ext = none) ∧
      (∀ p : Point, ext = some p → hull ≠ [] →
        ∃ v, find_rightmost_tangent ext hull = some v ∧ v ∈ hull) := by
  obtain ⟨hiff, hmem⟩ := find_rightmost_tangent_spec ext hull
  refine ⟨hiff, ?_⟩
  intro p hp hne
  cases hres : find_rightmost_tangent ext hull with
  | none =>
    rcases hiff.mp hres with h | h
    · exact absurd h hne
    · rw [hp] at h; exact absurd h (by simp)
  | some v => exact ⟨v, rfl, hmem v hres⟩

unseal Nat.gcd Rat.mul Rat.add Rat.sub Rat.inv in
/-- Witness for `tangent_locator_contract` at the test square hull and the
external point `(-1, 1)` from the repository's tangent unit test. -/
theorem tangent_locator_contract_witness :
    ([((0 : ℚ), (0 : ℚ)), (0, 2), (2, 2), (2, 0)] : List Point) ≠ [] ∧
      (some (((-1 : ℚ), (1 : ℚ)) : Point) = some (((-1 : ℚ), (1 : ℚ)) : Point)) ∧
      ∃ v, find_rightmost_tangent (some ((-1 : ℚ), (1 : ℚ)))
          [((0 : ℚ), (0 : ℚ)), (0, 2), (2, 2), (2, 0)] = some v ∧
        v ∈ ([((0 : ℚ), (0 : ℚ)), (0, 2), (2, 2), (2, 0)] : List Point) :=
  ⟨by decide, rfl,
    (tangent_locator_contract (some ((-1 : ℚ), (1 : ℚ)))
      [((0 : ℚ), (0 : ℚ)), (0, 2), (2, 2), (2, 0)]).2 ((-1 : ℚ), (1 : ℚ)) rfl (by decide)⟩

/-- If every attempt in the schedule fails, the outer loop falls back to
Graham's scan on the full input. -/
theorem chanOuter_all_none (ps : List Point) :
    ∀ ts : List Nat, (∀ t ∈ ts, chanAttempt ps (chanM ps.length t) = none) →
      chanOuter ps ts = grahams_scan ps := by
  intro ts
  induction ts with
  | nil => exact fun _ => rfl
  | cons t rest ih =>
    intro hall
    rw [chanOuter]
    rw [hall t (List.mem_cons_self t rest)]
    exact ih fun t' ht' => hall t' (List.mem_cons_of_mem t ht')

/-- The outer loop returns the hull of the first successful attempt in an
ascending schedule. -/
theorem chanOuter_first_success (ps : List Point) :
    ∀ (k s t : Nat) (hw : List Point), t ∈ List.range' s k →
      chanAttempt ps (chanM ps.length t) = some hw →
      (∀ t' ∈ List.range' s k, t' < t → chanAttempt ps (chanM ps.length t') = none) →
      chanOuter ps (List.range' s k) = hw := by
  intro k
  induction k with
  | zero => intro s t hw ht; simp at ht
  | succ k ih =>
    intro s t hw ht hsome hbefore
    rw [List.range'_succ] at ht hbefore ⊢
    rw [chanOuter]
    rcases List.mem_cons.mp ht with rfl | ht'
    · rw [hsome]
    · have hst : s < t := (List.mem_range'_1.mp ht').1
      rw [hbefore s (List.mem_cons_self s _) hst]
      exact ih (s + 1) t hw ht' hsome
        fun t' ht'' hlt => hbefore t' (List.mem_cons_of_mem s ht'') hlt

/-- C6: for at least 3 points, `chans_algorithm` attempts the group sizes
`m = 2^(2^t)` capped at `n`, for `t` in the schedule `chanTList n`
(Python `range(1, int(log2(log2 n)) + 2)`); it returns the walk hull of
the first attempt whose gift-wrap walk closes (`chanAttempt` is `some`
exactly when the walk returns to the leftmost point within `m` steps),
and falls back to `grahams_scan` on the full input when no attempt
closes. -/
theorem chan_attempt_schedule (ps : List Point) (h : 3 ≤ ps.length) :
    (∀ t, chanM ps.length t = min (2 ^ 2 ^ t) ps.length) ∧
      ((∀ t ∈ chanTList ps.length, chanAttempt ps (chanM ps.length t) = none) →
        chans_algorithm ps = grahams_scan ps) ∧
      (∀ t ∈ chanTList ps.length, ∀ hw,
        chanAttempt ps (chanM ps.length t) = some hw →
        (∀ t' ∈ chanTList ps.length, t' < t → chanAttempt ps (chanM ps.length t') = none) →
        chans_algorithm ps = hw) := by
  have halg : chans_algorithm ps = chanOuter ps (chanTList ps.length) := by
    unfold chans_algorithm
    rw [if_neg (by omega)]
  refine ⟨?_, ?_, ?_⟩
  · intro t
    unfold chanM
    split
    · exact (Nat.min_eq_right (by assumption)).symm
    · exact (Nat.min_eq_left (by omega)).symm
  · intro hall
    rw [halg]
    exact chanOuter_all_none ps _ hall
  · intro t ht hw hsome hbefore
    rw [halg]
    exact chanOuter_first_success ps _ 1 t hw ht hsome hbefore

unseal Nat.gcd Rat.mul Rat.add Rat.sub Rat.inv in
/-- Witness for `chan_attempt_schedule` at the square input: the first
attempt (`t = 1`, `m = 4`) closes and its walk hull is the returned one. -/
theorem chan_attempt_schedule_witness :
    3 ≤ squareInput.length ∧ (1 : Nat) ∈ chanTList squareInput.length ∧
      chanAttempt squareInput (chanM squareInput.length 1) =
        some [(0, 0), (0, 4), (4, 4), (4, 0)] ∧
      chans_algorithm squareInput = [(0, 0), (0, 4), (4, 4), (4, 0)] :=
  ⟨by decide, by decide, by decide,
    (chan_attempt_schedule squareInput (by decide)).2.2 1 (by decide)
      [(0, 0), (0, 4), (4, 4), (4, 0)] (by decide)
      (fun t' ht' hlt => absurd hlt (by
        have h1 : 1 ≤ t' := (List.mem_range'_1.mp ht').1
        omega))⟩

/-- `ptLt` is irreflexive. -/
theorem ptLt_irrefl (a : Point) : ¬ ptLt a a := by
  unfold ptLt
  rintro (h | ⟨_, h⟩) <;> exact lt_irrefl _ h

/-- `ptLt` is asymmetric. -/
theorem ptLt_asymm {a b : Point} (h : ptLt a b) : ¬ ptLt b a := by
  unfold ptLt at *
  rcases h with h | ⟨h1, h2⟩ <;> rintro (h' | ⟨h1', h2'⟩) <;> linarith

/-- `ptLt` is transitive. -/
theorem ptLt_trans {a b c : Point} (h1 : ptLt a b) (h2 : ptLt b c) : ptLt a c := by
  unfold ptLt at *
  rcases h1 with h | ⟨e1, h⟩ <;> rcases h2 with h' | ⟨e2, h'⟩
  · exact Or.inl (lt_trans h h')
  · exact Or.inl (e2 ▸ h)
  · exact Or.inl (e1 ▸ h')
  · exact Or.inr ⟨e1.trans e2, lt_trans h h'⟩

/-- Distinct points are strictly comparable in the lexicographic order. -/
theorem ptLt_trichotomy {a b : Point} (h : a ≠ b) : ptLt a b ∨ ptLt b a := by
  unfold ptLt
  rcases lt_trichotomy a.1 b.1 with h1 | h1 | h1
  · exact Or.inl (Or.inl h1)
  · rcases lt_trichotomy a.2 b.2 with h2 | h2 | h2
    · exact Or.inl (Or.inr ⟨h1, h2⟩)
    · exact absurd (Prod.ext h1 h2) h
    · exact Or.inr (Or.inr ⟨h1.symm, h2⟩)
  · exact Or.inr (Or.inl h1)

/-- If three points are exactly collinear, so is every triple drawn from
them (the determinant changes only by a sign under permutation and
vanishes on repeated arguments). -/
theorem orientationRaw_zero_all {x y z : Point} (h : orientationRaw x y z = 0) :
    ∀ p ∈ ([x, y, z] : List Point), ∀ q ∈ ([x, y, z] : List Point),
      ∀ r ∈ ([x, y, z] : List Point), orientationRaw p q r = 0 := by
  intro p hp q hq r hr
  simp only [orientationRaw] at h ⊢
  fin_cases hp <;> fin_cases hq <;> fin_cases hr <;>
    first
      | linear_combination h
      | linear_combination -h
      | linear_combination (0 : ℚ) * h

/-- An exactly vanishing determinant is also snapped to `0` by
`orientation`. -/
theorem orientation_eq_zero {p q r : Point} (h : orientationRaw p q r = 0) :
    orientation p q r = 0 := by
  unfold orientation
  rw [if_pos]
  rw [h]
  norm_num [eps]

/-- For a lexicographically sorted exactly collinear triple, the middle
point is strictly closer to the left endpoint than the right endpoint is. -/
theorem dist_lt_left {a b c : Point} (hab : ptLt a b) (hbc : ptLt b c)
    (h : orientationRaw a b c = 0) :
    distance_squared a b < distance_squared a c := by
  obtain ⟨ax, ay⟩ := a
  obtain ⟨bx, by'⟩ := b
  obtain ⟨cx, cy⟩ := c
  simp only [orientationRaw] at h
  unfold ptLt at hab hbc
  simp only at hab hbc h ⊢
  unfold distance_squared
  simp only
  rcases hab with h1 | ⟨h1, h2⟩ <;> rcases hbc with h3 | ⟨h3, h4⟩
  · have hu : (0 : ℚ) < bx - ax := by linarith
    have hv : bx - ax < cx - ax := by linarith
    have hv0 : (0 : ℚ) < cx - ax := lt_trans hu hv
    have key : ((cx - ax) ^ 2 + (cy - ay) ^ 2 - (bx - ax) ^ 2 - (by' - ay) ^ 2) *
        (cx - ax) ^ 2 =
        ((cx - ax) ^ 2 - (bx - ax) ^ 2) * ((cx - ax) ^ 2 + (cy - ay) ^ 2) := by
      linear_combination ((bx - ax) * (cy - ay) + (by' - ay) * (cx - ax)) * h
    have hVsq : (0 : ℚ) < (cx - ax) ^ 2 := by positivity
    have hdiff : (0 : ℚ) < (cx - ax) ^ 2 - (bx - ax) ^ 2 := by nlinarith
    have hsum : (0 : ℚ) < (cx - ax) ^ 2 + (cy - ay) ^ 2 := by positivity
    have hpos : (0 : ℚ) <
        ((cx - ax) ^ 2 + (cy - ay) ^ 2 - (bx - ax) ^ 2 - (by' - ay) ^ 2) *
          (cx - ax) ^ 2 := key ▸ mul_pos hdiff hsum
    nlinarith [hpos, hVsq]
  · exfalso
    subst h3
    have hu : (0 : ℚ) < bx - ax := by linarith
    nlinarith [mul_pos hu (show (0 : ℚ) < cy - by' by linarith)]
  · exfalso
    subst h1
    have hv : (0 : ℚ) < cx - ax := by linarith
    nlinarith [mul_pos (show (0 : ℚ) < by' - ay by linarith) hv]
  · nlinarith

/-- For a lexicographically sorted exactly collinear triple, the middle
point is strictly closer to the right endpoint than the left endpoint is. -/
theorem dist_lt_right {a b c : Point} (hab : ptLt a b) (hbc : ptLt b c)
    (h : orientationRaw a b c = 0) :
    distance_squared c b < distance_squared c a := by
  have h1' : ptLt (-c.1, -c.2) (-b.1, -b.2) := by
    unfold ptLt at hbc ⊢
    rcases hbc with h' | ⟨h', h2⟩
    · exact Or.inl (by simpa using h')
    · exact Or.inr ⟨by rw [h'], by simpa using h2⟩
  have h2' : ptLt (-b.1, -b.2) (-a.1, -a.2) := by
    unfold ptLt at hab ⊢
    rcases hab with h' | ⟨h', h2⟩
    · exact Or.inl (by simpa using h')
    · exact Or.inr ⟨by rw [h'], by simpa using h2⟩
  have hcol' : orientationRaw (-c.1, -c.2) (-b.1, -b.2) (-a.1, -a.2) = 0 := by
    simp only [orientationRaw] at h ⊢
    linear_combination -h
  have hd := dist_lt_left h1' h2' hcol'
  have e1 : distance_squared ((-c.1, -c.2) : Point) ((-b.1, -b.2) : Point) =
      distance_squared c b := by
    simp only [distance_squared]
    ring
  have e2 : distance_squared ((-c.1, -c.2) : Point) ((-a.1, -a.2) : Point) =
      distance_squared c a := by
    simp only [distance_squared]
    ring
  rw [e1, e2] at hd
  exact hd

/-- Sorting any permutation of a strictly increasing triple yields exactly
that triple. -/
theorem sortPoints_eq_of_perm {ps : List Point} {a b c : Point}
    (hperm : ps.Perm [a, b, c]) (hab : ptLt a b) (hbc : ptLt b c) :
    sortPoints ps = [a, b, c] := by
  have hs : List.Sorted ptLeP (sortPoints ps) := List.sorted_insertionSort ptLeP ps
  have hp : (sortPoints ps).Perm [a, b, c] :=
    (List.perm_insertionSort ptLeP ps).trans hperm
  have ht : List.Sorted ptLeP [a, b, c] := by
    simp only [List.sorted_cons, List.mem_cons, List.mem_singleton, List.sorted_singleton,
      List.sorted_nil]
    refine ⟨?_, ?_, ?_⟩
    · rintro b' (rfl | rfl | h)
      · exact ptLeP_of_ptLt hab
      · exact ptLeP_of_ptLt (ptLt_trans hab hbc)
      · simp at h
    · rintro b' (rfl | h)
      · exact ptLeP_of_ptLt hbc
      · simp at h
    · exact ⟨fun b' h => absurd h (List.not_mem_nil b'), trivial⟩
  exact List.eq_of_perm_of_sorted hp hs ht

/-- A strictly increasing triple has no duplicates. -/
theorem nodup_of_sorted3 {a b c : Point} (hab : ptLt a b) (hbc : ptLt b c) :
    ([a, b, c] : List Point).Nodup := by
  have h1 : a ≠ b := by
    intro e
    rw [e] at hab
    exact ptLt_irrefl b hab
  have h2 : b ≠ c := by
    intro e
    rw [e] at hbc
    exact ptLt_irrefl c hbc
  have h3 : a ≠ c := by
    intro e
    rw [e] at hab
    exact ptLt_asymm hab hbc
  simp [h1, h2, h3]

/-- `grahams_scan` on a list of 3 points whose sort is an exactly collinear
triple returns the two extremes, dropping the middle point. -/
theorem grahams_scan_collinear3 {ps : List Point} {a b c : Point}
    (hlen : ps.length = 3) (hsort : sortPoints ps = [a, b, c])
    (h1 : orientation a b c = 0) (h2 : orientation c b a = 0) :
    grahams_scan ps = [a, c] := by
  have e1 : buildChain [a, b, c] = [c, a] := by
    simp [buildChain, scanStep, popWhile, h2]
  have e2 : buildChain [c, b, a] = [a, c] := by
    simp [buildChain, scanStep, popWhile, h1]
  simp only [grahams_scan]
  rw [if_neg (by omega), hsort]
  rw [show ([a, b, c] : List Point).reverse = [c, b, a] from rfl]
  rw [e1, e2]
  rfl

/-- `build_ccw_hull` on a two-point duplicate-free list returns its sort. -/
theorem build_ccw_hull_pair {x y u v : Point} (hxy : x ≠ y)
    (hsort : sortPoints [x, y] = [u, v]) :
    build_ccw_hull [x, y] = [u, v] := by
  simp only [build_ccw_hull]
  rw [if_neg (by norm_num)]
  rw [List.dedup_eq_self.mpr (by simp [hxy]), hsort]
  rw [if_neg (by norm_num)]
  simp [stripWhile]

/-- `build_ccw_hull` on a duplicate-free list of 3 points whose sort is an
exactly collinear triple returns the two extremes. -/
theorem build_ccw_hull_collinear3 {ps : List Point} {a b c : Point}
    (hlen : ps.length = 3) (hnd : ps.Nodup) (hsort : sortPoints ps = [a, b, c])
    (h1 : orientation a b c = 0) (h2 : orientation c b a = 0) :
    build_ccw_hull ps = [a, c] := by
  have e1 : ([a, b, c] : List Point).foldl (fun st p => p :: stripWhile p st) [] = [c, a] := by
    simp [stripWhile, h1]
  have e2 : ([c, b, a] : List Point).foldl (fun st p => p :: stripWhile p st) [] = [a, c] := by
    simp [stripWhile, h2]
  simp only [build_ccw_hull]
  rw [if_neg (by omega)]
  rw [List.dedup_eq_self.mpr hnd, hsort]
  rw [if_neg (by norm_num)]
  rw [show ([a, b, c] : List Point).reverse = [c, b, a] from rfl]
  rw [e1, e2]
  rfl

/-- The first-minimum selection step of Python's `min`: between two
candidates at least one of which is the least point, it picks that least
point. -/
theorem minStep_eq {p q a : Point}
    (hp : p = a ∨ ptLt a p) (hq : q = a ∨ ptLt a q) (hmem : a = p ∨ a = q) :
    (if ptLt q p then q else p) = a := by
  rcases hp with hp | hp
  · rcases hq with hq | hq
    · split
      · exact hq
      · exact hp
    · rw [hp, if_neg (ptLt_asymm hq)]
  · rcases hq with hq | hq
    · rw [hq, if_pos (hq ▸ hp)]
    · exfalso
      rcases hmem with h | h
      · rw [h] at hp
        exact ptLt_irrefl p hp
      · rw [h] at hq
        exact ptLt_irrefl q hq

/-- `min` over a three-point list picks the lexicographically least point. -/
theorem minLex_three {x y z a : Point}
    (hx : x = a ∨ ptLt a x) (hy : y = a ∨ ptLt a y) (hz : z = a ∨ ptLt a z)
    (hmem : a = x ∨ a = y ∨ a = z) :
    minLex [x, y, z] = a := by
  simp only [minLex, List.foldl_cons, List.foldl_nil]
  have hm1 : (if ptLt y x then y else x) = a ∨ ptLt a (if ptLt y x then y else x) := by
    by_cases hc : ptLt y x
    · rw [if_pos hc]
      exact hy
    · rw [if_neg hc]
      exact hx
  rcases hmem with h | h | h
  · have e1 : (if ptLt y x then y else x) = a := minStep_eq hx hy (Or.inl h)
    exact minStep_eq (Or.inl e1) hz (Or.inl e1.symm)
  · have e1 : (if ptLt y x then y else x) = a := minStep_eq hx hy (Or.inr h)
    exact minStep_eq (Or.inl e1) hz (Or.inl e1.symm)
  · exact minStep_eq hm1 hz (Or.inr h)

/-- `incremental_convex_hull` on 3 distinct exactly collinear points
returns the two extremes. -/
theorem incremental_collinear3 {x y z a b c : Point}
    (hperm : ([x, y, z] : List Point).Perm [a, b, c])
    (hab : ptLt a b) (hbc : ptLt b c)
    (h1 : orientation a b c = 0) (h2 : orientation c b a = 0) :
    incremental_convex_hull [x, y, z] = [a, c] := by
  have hnd3 : ([a, b, c] : List Point).Nodup := nodup_of_sorted3 hab hbc
  have hndxyz : ([x, y, z] : List Point).Nodup := hperm.nodup_iff.mpr hnd3
  have hxy : x ≠ y := by
    intro e
    simp [e] at hndxyz
  have hlen2 : (sortPoints [x, y]).length = 2 := by
    simp only [sortPoints, List.length_insertionSort]
    rfl
  obtain ⟨u, v, huv⟩ : ∃ u v, sortPoints [x, y] = [u, v] := by
    rcases e : sortPoints [x, y] with _ | ⟨u, _ | ⟨v, _ | ⟨w, t⟩⟩⟩ <;>
      rw [e] at hlen2 <;> simp at hlen2
    exact ⟨u, v, rfl⟩
  have hpuv : ([u, v] : List Point).Perm [x, y] := by
    rw [← huv]
    exact List.perm_insertionSort ptLeP [x, y]
  have hpuvz : ([u, v, z] : List Point).Perm [x, y, z] := by
    have := hpuv.append_right [z]
    simpa using this
  have hsort3 : sortPoints [u, v, z] = [a, b, c] :=
    sortPoints_eq_of_perm (hpuvz.trans hperm) hab hbc
  have hnduvz : ([u, v, z] : List Point).Nodup := hpuvz.nodup_iff.mpr hndxyz
  have s1 : incrStep [] x = [x] := by
    simp [incrStep, build_ccw_hull]
  have s2 : incrStep [x] y = [u, v] := by
    simp only [incrStep]
    rw [if_pos (by norm_num)]
    rw [show ([x] : List Point) ++ [y] = [x, y] from rfl]
    exact build_ccw_hull_pair hxy huv
  have s3 : incrStep [u, v] z = [a, c] := by
    simp only [incrStep]
    rw [if_pos (by norm_num)]
    rw [show ([u, v] : List Point) ++ [z] = [u, v, z] from rfl]
    exact build_ccw_hull_collinear3 (by norm_num) hnduvz hsort3 h1 h2
  simp only [incremental_convex_hull]
  rw [if_neg (by norm_num)]
  simp only [List.foldl_cons, List.foldl_nil]
  rw [s1, s2, s3]

/-- `chans_algorithm` on 3 distinct collinear points: the single group's
mini-hull is the Graham pair of extremes and the two-step outer walk
returns it. -/
theorem chan_collinear3 {x y z a c : Point}
    (hg : grahams_scan [x, y, z] = [a, c])
    (hmin : minLex [x, y, z] = a) (hac : a ≠ c) :
    chans_algorithm [x, y, z] = [a, c] := by
  have hca : c ≠ a := Ne.symm hac
  have hn1 : chanNext [[a, c]] a = some c := by
    simp [chanNext, find_rightmost_tangent, find_best_among_few, is_better_tangent,
      chanConsider, hac, hca]
  have hn2 : chanNext [[a, c]] c = some a := by
    simp [chanNext, find_rightmost_tangent, find_best_among_few, is_better_tangent,
      chanConsider, hac, hca]
  have hwalk : chanWalk [[a, c]] a 3 a [] = some [a, c] := by
    rw [show (3 : Nat) = 2 + 1 from rfl, chanWalk, hn1]
    simp only [hca, if_neg, ite_false]
    rw [show (2 : Nat) = 1 + 1 from rfl, chanWalk, hn2]
    simp
  have hatt : chanAttempt [x, y, z] (chanM 3 1) = some [a, c] := by
    rw [show chanM 3 1 = 3 from rfl]
    simp only [chanAttempt]
    rw [show chunksOf 3 [x, y, z] = [[x, y, z]] from rfl]
    rw [hmin]
    simp only [List.map_cons, List.map_nil]
    rw [if_pos (by norm_num), hg]
    exact hwalk
  simp only [chans_algorithm]
  rw [if_neg (by norm_num)]
  rw [show ([x, y, z] : List Point).length = 3 from rfl]
  rw [show chanTList 3 = [1] from rfl]
  rw [chanOuter]
  rw [show ([x, y, z] : List Point).length = 3 from rfl]
  rw [hatt]

/-- The two-branch index update of the leftmost scan is the lexicographic
strict comparison. -/
theorem leftStep_eq (ps : List Point) (best i : Nat) :
    (if (pget ps i).1 < (pget ps best).1 then i
     else if (pget ps i).1 = (pget ps best).1 ∧ (pget ps i).2 < (pget ps best).2 then i
     else best) = if ptLt (pget ps i) (pget ps best) then i else best := by
  unfold ptLt
  by_cases h1 : (pget ps i).1 < (pget ps best).1
  · rw [if_pos h1, if_pos (Or.inl h1)]
  · rw [if_neg h1]
    by_cases h2 : (pget ps i).1 = (pget ps best).1 ∧ (pget ps i).2 < (pget ps best).2
    · rw [if_pos h2, if_pos (Or.inr h2)]
    · rw [if_neg h2, if_neg (by tauto)]

/-- On a 3-point list the leftmost scan returns the index of the strict
lexicographic minimum. -/
theorem leftmostIdx_three (ps : List Point) (hlen : ps.length = 3) (L : Nat) (hL : L < 3)
    (hmin : ∀ i, i < 3 → i ≠ L → ptLt (pget ps L) (pget ps i)) :
    leftmostIdx ps = L := by
  simp only [leftmostIdx, hlen]
  rw [show (3 : Nat) - 1 = 2 from rfl]
  rw [show List.range' 1 2 = [1, 2] from rfl]
  simp only [List.foldl_cons, List.foldl_nil]
  simp only [leftStep_eq]
  interval_cases L
  · rw [if_neg (ptLt_asymm (hmin 1 (by norm_num) (by norm_num)))]
    rw [if_neg (ptLt_asymm (hmin 2 (by norm_num) (by norm_num)))]
  · rw [if_pos (hmin 0 (by norm_num) (by norm_num))]
    rw [if_neg (ptLt_asymm (hmin 2 (by norm_num) (by norm_num)))]
  · by_cases hc : ptLt (pget ps 1) (pget ps 0)
    · rw [if_pos hc, if_pos (hmin 1 (by norm_num) (by norm_num))]
    · rw [if_neg hc, if_pos (hmin 0 (by norm_num) (by norm_num))]

/-- On a 3-point list of pairwise-collinear points (as seen from `p`), the
candidate scan of a Jarvis step returns the index farthest from `p`. -/
theorem jarvisCandidate_three (ps : List Point) (hlen : ps.length = 3) (p far mid : Nat)
    (hp : p < 3) (hfar : far < 3) (hmid : mid < 3)
    (hpf : p ≠ far) (hpm : p ≠ mid) (hfm : far ≠ mid)
    (hOr : ∀ i q : Nat, i < 3 → q < 3 →
      orientation (pget ps p) (pget ps i) (pget ps q) = 0)
    (hFar : distance_squared (pget ps p) (pget ps mid) <
      distance_squared (pget ps p) (pget ps far)) :
    jarvisCandidate ps p = far := by
  have hF' : ¬ (distance_squared (pget ps p) (pget ps far) <
      distance_squared (pget ps p) (pget ps mid)) := not_lt.mpr hFar.le
  interval_cases p <;> interval_cases far <;> interval_cases mid <;>
    first
      | exact absurd rfl hpf
      | exact absurd rfl hpm
      | exact absurd rfl hfm
      | (simp only [jarvisCandidate, hlen]
         rw [show List.range 3 = [0, 1, 2] from rfl]
         simp [hOr, hFar, hF'])

/-- The gift-wrap walk of `jarvis_march` on a 3-point list with reciprocal
farthest candidates: two steps and back to the start. -/
theorem jarvis_collinear3 (ps : List Point) (hlen : ps.length = 3) (L F : Nat)
    (hLF : L ≠ F) (hlm : leftmostIdx ps = L) (hc1 : jarvisCandidate ps L = F)
    (hc2 : jarvisCandidate ps F = L) :
    jarvis_march ps = [pget ps L, pget ps F] := by
  have u1 : ∀ fuel p hull, jarvisLoop ps L (fuel + 1) p hull =
      (let q := jarvisCandidate ps p
       if q = L then hull ++ [pget ps p]
       else if ps.length < (hull ++ [pget ps p]).length then hull ++ [pget ps p]
       else jarvisLoop ps L fuel q (hull ++ [pget ps p])) := fun _ _ _ => rfl
  simp only [jarvis_march, hlm]
  rw [if_neg (by omega)]
  rw [hlen]
  rw [u1]
  simp only [hc1]
  rw [if_neg (Ne.symm hLF)]
  rw [if_neg (by simp [hlen])]
  rw [show (3 : Nat) = 2 + 1 from rfl, u1]
  simp only [hc2]
  simp

/-- All four hull operations on a 3-point list that is a permutation of an
exactly collinear strictly increasing triple `a < b < c` (with `a` at index
`La` and `c` at index `Lc`) return the two extremes `[a, c]`. -/
theorem hulls_collinear3 {x y z a b c : Point} (La Lc : Nat)
    (hperm : ([x, y, z] : List Point).Perm [a, b, c])
    (hab : ptLt a b) (hbc : ptLt b c) (hcol : orientationRaw a b c = 0)
    (hLa : La < 3) (hLc : Lc < 3) (hne : La ≠ Lc)
    (hpa : pget [x, y, z] La = a) (hpc : pget [x, y, z] Lc = c)
    (hpb : ∀ i, i < 3 → i ≠ La → i ≠ Lc → pget [x, y, z] i = b) :
    grahams_scan [x, y, z] = [a, c] ∧ jarvis_march [x, y, z] = [a, c] ∧
      chans_algorithm [x, y, z] = [a, c] ∧ incremental_convex_hull [x, y, z] = [a, c] := by
  have hsort := sortPoints_eq_of_perm hperm hab hbc
  have hallabc := orientationRaw_zero_all hcol
  have habc0 : orientation a b c = 0 := orientation_eq_zero hcol
  have hcba0 : orientation c b a = 0 :=
    orientation_eq_zero (hallabc c (by simp) b (by simp) a (by simp))
  have hlen : ([x, y, z] : List Point).length = 3 := rfl
  have hG := grahams_scan_collinear3 hlen hsort habc0 hcba0
  have hmem3 : ∀ j, j < 3 → pget [x, y, z] j ∈ ([a, b, c] : List Point) := by
    intro j hj
    exact hperm.mem_iff.mp (pget_mem hj)
  have hOrA : ∀ i q : Nat, i < 3 → q < 3 →
      orientation (pget [x, y, z] La) (pget [x, y, z] i) (pget [x, y, z] q) = 0 :=
    fun i q hi hq =>
      orientation_eq_zero (hallabc _ (hmem3 La hLa) _ (hmem3 i hi) _ (hmem3 q hq))
  have hOrC : ∀ i q : Nat, i < 3 → q < 3 →
      orientation (pget [x, y, z] Lc) (pget [x, y, z] i) (pget [x, y, z] q) = 0 :=
    fun i q hi hq =>
      orientation_eq_zero (hallabc _ (hmem3 Lc hLc) _ (hmem3 i hi) _ (hmem3 q hq))
  have hmid : 3 - La - Lc < 3 := by omega
  have hpbm : pget [x, y, z] (3 - La - Lc) = b := hpb _ (by omega) (by omega) (by omega)
  have hd1 : distance_squared a b < distance_squared a c := dist_lt_left hab hbc hcol
  have hd2 : distance_squared c b < distance_squared c a := dist_lt_right hab hbc hcol
  have hc1 : jarvisCandidate [x, y, z] La = Lc :=
    jarvisCandidate_three _ hlen La Lc (3 - La - Lc) hLa hLc hmid hne (by omega) (by omega)
      hOrA (by rw [hpa, hpbm, hpc]; exact hd1)
  have hc2 : jarvisCandidate [x, y, z] Lc = La :=
    jarvisCandidate_three _ hlen Lc La (3 - La - Lc) hLc hLa hmid (Ne.symm hne) (by omega)
      (by omega) hOrC (by rw [hpc, hpbm, hpa]; exact hd2)
  have hmin : ∀ i, i < 3 → i ≠ La → ptLt (pget [x, y, z] La) (pget [x, y, z] i) := by
    intro i hi hiA
    by_cases hiC : i = Lc
    · rw [hpa, hiC, hpc]
      exact ptLt_trans hab hbc
    · rw [hpa, hpb i hi hiA hiC]
      exact hab
  have hlm := leftmostIdx_three _ hlen La hLa hmin
  have hJ : jarvis_march [x, y, z] = [a, c] := by
    rw [jarvis_collinear3 _ hlen La Lc hne hlm hc1 hc2, hpa, hpc]
  have hac : a ≠ c := by
    intro e
    rw [e] at hab
    exact ptLt_asymm hbc hab
  have hge : ∀ p, p ∈ ([a, b, c] : List Point) → p = a ∨ ptLt a p := by
    intro p hp
    simp only [List.mem_cons, List.mem_singleton] at hp
    rcases hp with rfl | rfl | h
    · exact Or.inl rfl
    · exact Or.inr hab
    · simp only [List.not_mem_nil, or_false] at h
      rw [h]
      exact Or.inr (ptLt_trans hab hbc)
  have hmemA : a = x ∨ a = y ∨ a = z := by
    have := hperm.mem_iff.mpr (show a ∈ ([a, b, c] : List Point) by simp)
    simpa using this
  have hminL : minLex [x, y, z] = a :=
    minLex_three (hge x (hperm.mem_iff.mp (by simp))) (hge y (hperm.mem_iff.mp (by simp)))
      (hge z (hperm.mem_iff.mp (by simp))) hmemA
  have hC := chan_collinear3 hG hminL hac
  have hI := incremental_collinear3 hperm hab hbc habc0 hcba0
  exact ⟨hG, hJ, hC, hI⟩

/-- C9: for every input of exactly 3 distinct collinear points, each of the
four hull operations (`grahams_scan`, `jarvis_march`, `chans_algorithm`,
`incremental_convex_hull`) returns exactly the 2 extreme points of the
collinear triple: writing `[a, b, c]` for the lexicographically sorted
triple (so `a` and `c` are the segment endpoints and `b` the middle point),
every one of the four returns `[a, c]`, with the middle point removed. -/
theorem collinear_triple_extremes (x y z : Point)
    (hxy : x ≠ y) (hxz : x ≠ z) (hyz : y ≠ z)
    (hcol : orientationRaw x y z = 0) :
    ∃ a b c : Point, sortPoints [x, y, z] = [a, b, c] ∧ ptLt a b ∧ ptLt b c ∧
      grahams_scan [x, y, z] = [a, c] ∧ jarvis_march [x, y, z] = [a, c] ∧
      chans_algorithm [x, y, z] = [a, c] ∧ incremental_convex_hull [x, y, z] = [a, c] := by
  have hall := orientationRaw_zero_all hcol
  rcases ptLt_trichotomy hxy with h1 | h1
  · rcases ptLt_trichotomy hyz with h2 | h2
    · have hp : ([x, y, z] : List Point).Perm [x, y, z] := List.Perm.refl _
      have M := hulls_collinear3 0 2 hp h1 h2 (hall x (by simp) y (by simp) z (by simp))
        (by norm_num) (by norm_num) (by norm_num) rfl rfl
        (by intro i hi e1 e2; interval_cases i
            · exact absurd rfl e1
            · rfl
            · exact absurd rfl e2)
      exact ⟨x, y, z, sortPoints_eq_of_perm hp h1 h2, h1, h2, M.1, M.2.1, M.2.2.1, M.2.2.2⟩
    · rcases ptLt_trichotomy hxz with h3 | h3
      · have hp : ([x, y, z] : List Point).Perm [x, z, y] :=
          List.Perm.cons x (List.Perm.swap z y [])
        have M := hulls_collinear3 0 1 hp h3 h2 (hall x (by simp) z (by simp) y (by simp))
          (by norm_num) (by norm_num) (by norm_num) rfl rfl
          (by intro i hi e1 e2; interval_cases i
              · exact absurd rfl e1
              · exact absurd rfl e2
              · rfl)
        exact ⟨x, z, y, sortPoints_eq_of_perm hp h3 h2, h3, h2, M.1, M.2.1, M.2.2.1, M.2.2.2⟩
      · have hp : ([x, y, z] : List Point).Perm [z, x, y] :=
          (List.Perm.cons x (List.Perm.swap z y [])).trans (List.Perm.swap z x [y])
        have M := hulls_collinear3 2 1 hp h3 h1 (hall z (by simp) x (by simp) y (by simp))
          (by norm_num) (by norm_num) (by norm_num) rfl rfl
          (by intro i hi e1 e2; interval_cases i
              · rfl
              · exact absurd rfl e2
              · exact absurd rfl e1)
        exact ⟨z, x, y, sortPoints_eq_of_perm hp h3 h1, h3, h1, M.1, M.2.1, M.2.2.1, M.2.2.2⟩
  · rcases ptLt_trichotomy hxz with h2 | h2
    · have hp : ([x, y, z] : List Point).Perm [y, x, z] := List.Perm.swap y x [z]
      have M := hulls_collinear3 1 2 hp h1 h2 (hall y (by simp) x (by simp) z (by simp))
        (by norm_num) (by norm_num) (by norm_num) rfl rfl
        (by intro i hi e1 e2; interval_cases i
            · rfl
            · exact absurd rfl e1
            · exact absurd rfl e2)
      exact ⟨y, x, z, sortPoints_eq_of_perm hp h1 h2, h1, h2, M.1, M.2.1, M.2.2.1, M.2.2.2⟩
    · rcases ptLt_trichotomy hyz with h3 | h3
      · have hp : ([x, y, z] : List Point).Perm [y, z, x] :=
          (List.Perm.swap y x [z]).trans (List.Perm.cons y (List.Perm.swap z x []))
        have M := hulls_collinear3 1 0 hp h3 h2 (hall y (by simp) z (by simp) x (by simp))
          (by norm_num) (by norm_num) (by norm_num) rfl rfl
          (by intro i hi e1 e2; interval_cases i
              · exact absurd rfl e2
              · exact absurd rfl e1
              · rfl)
        exact ⟨y, z, x, sortPoints_eq_of_perm hp h3 h2, h3, h2, M.1, M.2.1, M.2.2.1, M.2.2.2⟩
      · have hp : ([x, y, z] : List Point).Perm [z, y, x] :=
          ((List.Perm.cons x (List.Perm.swap z y [])).trans
            (List.Perm.swap z x [y])).trans (List.Perm.cons z (List.Perm.swap y x []))
        have M := hulls_collinear3 2 0 hp h3 h1 (hall z (by simp) y (by simp) x (by simp))
          (by norm_num) (by norm_num) (by norm_num) rfl rfl
          (by intro i hi e1 e2; interval_cases i
              · exact absurd rfl e2
              · rfl
              · exact absurd rfl e1)
        exact ⟨z, y, x, sortPoints_eq_of_perm hp h3 h1, h3, h1, M.1, M.2.1, M.2.2.1, M.2.2.2⟩

unseal Nat.gcd Rat.mul Rat.add Rat.sub Rat.inv in
/-- Witness for `collinear_triple_extremes` at the distinct collinear
triple `(0,0), (1,1), (2,2)`. -/
theorem collinear_triple_extremes_witness :
    ((0, 0) : Point) ≠ (1, 1) ∧ ((0, 0) : Point) ≠ (2, 2) ∧
      ((1, 1) : Point) ≠ (2, 2) ∧ orientationRaw (0, 0) (1, 1) (2, 2) = 0 ∧
      (∃ a b c : Point, sortPoints [(0, 0), (1, 1), (2, 2)] = [a, b, c] ∧
        ptLt a b ∧ ptLt b c ∧
        grahams_scan [(0, 0), (1, 1), (2, 2)] = [a, c] ∧
        jarvis_march [(0, 0), (1, 1), (2, 2)] = [a, c] ∧
        chans_algorithm [(0, 0), (1, 1), (2, 2)] = [a, c] ∧
        incremental_convex_hull [(0, 0), (1, 1), (2, 2)] = [a, c]) :=
  ⟨by decide, by decide, by decide, by decide,
    collinear_triple_extremes (0, 0) (1, 1) (2, 2) (by decide) (by decide) (by decide)
      (by decide)⟩
